import Mathlib

/-!
# llvm2pic32: ELF32 to Intel HEX conversion

A shallow embedding of `src/main.cpp` and the properties of its record
encoder, section classifier and address translation.

Conventions of the embedding:

* machine integers are `Nat` (or `Int` where the C value is signed), with the
  wrap-around of the C type written out where it can happen; the types are
  those of the `__x86_64__` branch of the source (`char` signed, `long` 64 bits,
  little-endian);
* a `char` buffer is a `List Nat` of byte values (`0 .. 255`); a pointer into
  it is the rest of the list from that position; a C string is such a list
  read up to its first `0`, and `IsPrefixOrEqual` and `isLoadable`, which take
  C strings, read the end of the list as the terminating `0`;
* a read outside a `malloc`ed buffer has no defined result. `main` makes two
  kinds of reads that nothing keeps inside the buffer: those of a section name
  in the string table (`IsPrefixOrEqual.outside` tells when the scan passes the
  end of the table) and those of the section content (`payloadIndex`). The
  functions that follow a run through such a read return `none`, and the run
  is not followed further;
* `stdout` is text: a list of lines (`List Char`), one per record written, in
  the order written;
* the input file is the list of its bytes; a seek to a non-negative offset
  succeeds, a read fails when the file has too few bytes left.
-/

namespace Llvm2pic32

/-! ## Helper functions (`main.cpp` 64-104) -/

/-- The `print` block of `Hex`: walks `buf` from index `digits - 1` down to `0`
and passes one character per nibble to `output`; the result is the sequence of
characters passed. -/
def Hex.print (buf : List Nat) : Nat → List Char
  | 0 => []
  | digits + 1 =>
    (if buf.getD digits 0 < 10 then Char.ofNat ('0'.toNat + buf.getD digits 0)
     else Char.ofNat ('A'.toNat - 10 + buf.getD digits 0)) :: Hex.print buf digits

/-- The `do { buf[k] = n % 16; n = n/16; k++; } while (n != 0)` loop of `Hex`.
`n` is a `uint64_t`, so the body runs at most 16 times, the size of `buf`;
the first argument counts the entries of `buf` not yet written. -/
def Hex.fill : Nat → List Nat → Nat → Nat → List Nat
  | 0, buf, _, _ => buf
  | room + 1, buf, k, n =>
    let buf := buf.set k (n % 16)
    let n := n / 16
    let k := k + 1
    if n ≠ 0 then Hex.fill room buf k n else buf

/-- `Hex(n, digitsOrLetter, output)`: the characters passed to `output`, for
`digitsOrLetter` up to 16, the size of `buf`. -/
def Hex (n digitsOrLetter : Nat) : List Char :=
  Hex.print (Hex.fill 16 (List.replicate 16 0) 0 n) digitsOrLetter

/-- Dereference of a `const char *`: the byte under the pointer, `0` at the
terminator. -/
def deref (s : List Nat) : Nat := s.headD 0

/-- A byte seen as a (signed) `char` promoted to `int`. -/
def schar (c : Nat) : Int := ((c : Int) + 128) % 256 - 128

/-- The `again:` loop of `IsPrefixOrEqual`; `s++, p++` are the tails. -/
def IsPrefixOrEqual.again : List Nat → List Nat → Int
  | [], p => if deref p = 0 then -1 else 0
  | c :: s, p =>
    if c = 0 ∧ deref p = 0 then -1
    else if c = 0 ∧ deref p ≠ 0 then 0
    else if c ≠ 0 ∧ deref p = 0 then schar c
    else
      let diff : Int := (schar c - schar (deref p) + 128) % 256 - 128
      if diff ≠ 0 then 0 else IsPrefixOrEqual.again s p.tail

/-- `IsPrefixOrEqual(eightbitString, eightbitPrefix)`. -/
def IsPrefixOrEqual (eightbitString eightbitPrefix : List Nat) : Int :=
  let s := eightbitString
  let p := eightbitPrefix
  if deref s = 0 ∧ deref p = 0 then -1
  else if deref s = 0 then 0
  else if deref p = 0 then schar (deref s)
  else IsPrefixOrEqual.again s p

/-- The bytes of a string literal of the source (ASCII). -/
def lit (s : String) : List Nat := s.toList.map Char.toNat

/-! ## Intermediate definitions (`main.cpp` 108-155) -/

/-- The `while (const char * sct = loadables[i])` loop of `isLoadable`, on the
part of the array from index `i` on; `none` is the `NULL` entry. -/
def isLoadable.loop (sectname : List Nat) : List (Option (List Nat)) → Bool
  | [] => false
  | none :: _ => false
  | some sct :: rest =>
    if IsPrefixOrEqual sectname sct ≠ 0 then true else isLoadable.loop sectname rest

/-- `isLoadable(sectname, inclMipsSects)`. -/
def isLoadable (sectname : List Nat) (inclMipsSects : Bool) : Bool :=
  let loadables : List (Option (List Nat)) :=
    [some (lit ".text"), some (lit ".rodata"), some (lit ".data"), some (lit ".conf"),
     some (lit ".boot"), some (lit ".start"), some (lit ".tlb"), some (lit ".cache"),
     some (lit ".special"), none]
  let loadables := if inclMipsSects then loadables.set 4 none else loadables
  isLoadable.loop sectname loadables

/-- The scan of `IsPrefixOrEqual(s, p)` reads `*s` behind the last byte of the
buffer `s` points into: the buffer ends before the scan has met a `0` in `s`,
the end of the prefix `p`, or a difference. -/
def IsPrefixOrEqual.outside : List Nat → List Nat → Bool
  | [], _ => true
  | c :: s, p =>
    if c = 0 then false
    else if deref p = 0 then false
    else
      let diff : Int := (schar c - schar (deref p) + 128) % 256 - 128
      if diff ≠ 0 then false else IsPrefixOrEqual.outside s p.tail

/-- The loop of `isLoadable` reads behind the last byte of the buffer
`sectname` points into: some call of `IsPrefixOrEqual` does, and no earlier
call has returned a non-zero value. -/
def isLoadable.outsideLoop (sectname : List Nat) : List (Option (List Nat)) → Bool
  | [] => false
  | none :: _ => false
  | some sct :: rest =>
    if IsPrefixOrEqual.outside sectname sct then true
    else if IsPrefixOrEqual sectname sct ≠ 0 then false
    else isLoadable.outsideLoop sectname rest

/-- The call `isLoadable(sectname, inclMipsSects)` reads behind the last byte
of the buffer `sectname` points into. -/
def isLoadable.outside (sectname : List Nat) (inclMipsSects : Bool) : Bool :=
  let loadables : List (Option (List Nat)) :=
    [some (lit ".text"), some (lit ".rodata"), some (lit ".data"), some (lit ".conf"),
     some (lit ".boot"), some (lit ".start"), some (lit ".tlb"), some (lit ".cache"),
     some (lit ".special"), none]
  let loadables := if inclMipsSects then loadables.set 4 none else loadables
  isLoadable.outsideLoop sectname loadables

/-- `AsPhysical(vAddr)`. -/
def AsPhysical (vAddr : Nat) : Nat := vAddr &&& 0x1FFFFFFF

/-- The value `-checksum` of a `uint8_t checksum`, converted to the `uint64_t`
parameter of `Hex`. -/
def negU64 (checksum : Nat) : Nat := (2 ^ 64 - checksum) % 2 ^ 64

/-- `emitIntelExtendedLinAddr(paddr)`: the line written to `stdout`. -/
def emitIntelExtendedLinAddr (paddr : Nat) : List Char :=
  let msb := 0xff &&& (paddr >>> 24)
  let lsb := 0xff &&& (paddr >>> 16)
  let checksum := (6 + msb + lsb) % 256
  ":02000004".toList ++ Hex msb 2 ++ Hex lsb 2 ++ Hex (negU64 checksum) 2 ++ "\x0d\x0a".toList

/-! ## The per-section record loop (`main.cpp` 239-272) -/

/-- The index of `*(sectcontent + (i + sectionHeader.size - bytesleft))`
(`main.cpp` 265): `i` is an `int` and `sectionHeader.size` a `uint32`, so their
sum is taken in 32 bits; `bytesleft` is a `uint64_t`, so the difference is taken
in 64 bits. -/
def payloadIndex (i size bytesleft : Nat) : Nat :=
  ((i + size) % 2 ^ 32 + 2 ^ 64 - bytesleft) % 2 ^ 64

/-- One pass through the body of the `again:` loop of `main`, from the
computation of `offset` to `bytesleft -= bytesOnline`: the lines written to
`stdout` and the new value of `bytesleft`. `size` is `sectionHeader.size`,
`sectcontent` the buffer the section was read into; `offset` and `bytesleft`
are `uint64_t`. `none` means that the `for` loop read a byte outside
`sectcontent`. -/
def again.body (size paddr : Nat) (sectcontent : List Nat) (bytesleft : Nat) :
    Option (List (List Char) × Nat) :=
  let offset := (size + 2 ^ 64 - bytesleft) % 2 ^ 64
  let ela := if offset % 32768 = 0 then [emitIntelExtendedLinAddr ((paddr + offset) % 2 ^ 32)]
    else []
  let bytesOnline := min bytesleft 16
  let checksum := bytesOnline % 256
  let address := 0xFFFF &&& (paddr + offset)
  let checksum := (checksum + (0xff &&& address)) % 256
  let checksum := (checksum + (0xff &&& (address >>> 8))) % 256
  let content := (List.range bytesOnline).foldl
    (fun (acc : Option (List Char × Nat)) i =>
      match acc, sectcontent[payloadIndex i size bytesleft]? with
      | some acc, some data => some (acc.1 ++ Hex data 2, (acc.2 + data) % 256)
      | _, _ => none)
    (some ([], checksum))
  match content with
  | none => none
  | some content =>
    let line := ":".toList ++ Hex bytesOnline 2 ++ Hex address 4 ++ Hex 0 2 ++ content.1 ++
      Hex (negU64 content.2) 2 ++ "\x0d\x0a".toList
    some (ela ++ [line], bytesleft - bytesOnline)

/-- The `again:` loop of `main`: all lines written for one section, starting
with `bytesleft` bytes to go. The first argument bounds the number of passes;
`none` means that a pass read outside `sectcontent`, or that the bound was
reached before `bytesleft` became `0`. -/
def again (size paddr : Nat) (sectcontent : List Nat) : Nat → Nat → Option (List (List Char))
  | 0, _ => none
  | fuel + 1, bytesleft =>
    match again.body size paddr sectcontent bytesleft with
    | none => none
    | some pass =>
      if pass.2 > 0 then (again size paddr sectcontent fuel pass.2).map (pass.1 ++ ·)
      else some pass.1

/-- The records written for one section (`main.cpp` 239-272, after the
content has been read): `bytesleft = sectionHeader.size`, and every pass
takes at least one byte, so `size + 1` passes are allowed; `none` is then a
read outside `sectcontent`. -/
def encodeSection (size paddr : Nat) (sectcontent : List Nat) : Option (List (List Char)) :=
  again size paddr sectcontent (size + 1) size

/-! ## Reading the ELF file (`main.cpp` 196-215, 229-242) -/

/-- `struct Elf32_Shdr`. -/
structure Elf32_Shdr where
  name : Nat
  type : Nat
  flags : Nat
  addr : Nat
  offset : Nat
  size : Nat
  link : Nat
  info : Nat
  addralign : Nat
  entsize : Nat
deriving DecidableEq

/-- `sizeof(Elf32_Shdr)`: ten 32-bit fields. -/
def sizeofElf32_Shdr : Nat := 40

/-- A 32-bit field stored at byte `off` of a buffer, little-endian as on the
x86_64 host. -/
def field32 (buf : List Nat) (off : Nat) : Nat :=
  buf.getD off 0 + 256 * buf.getD (off + 1) 0 + 65536 * buf.getD (off + 2) 0
    + 16777216 * buf.getD (off + 3) 0

/-- The 40 bytes of a section header seen as `Elf32_Shdr`. -/
def asElf32_Shdr (buf : List Nat) : Elf32_Shdr :=
  { name := field32 buf 0, type := field32 buf 4, flags := field32 buf 8,
    addr := field32 buf 12, offset := field32 buf 16, size := field32 buf 20,
    link := field32 buf 24, info := field32 buf 28, addralign := field32 buf 32,
    entsize := field32 buf 36 }

/-- `fixElf32(offset); readElf32(buf, bytes, count)` on the file `file`:
`count` items of `bytes` bytes from position `offset`. `none` is the short
read that ends the process with status 9. -/
def readElf32 (file : List Nat) (offset bytes count : Nat) : Option (List Nat) :=
  let rest := file.drop offset
  if count ≤ rest.length / bytes then some (rest.take (bytes * count)) else none

/-- What a run has done so far: the records written, and the exit status once
the process has called `exit`. -/
structure Run where
  records : List (List Char)
  status : Option Nat
deriving DecidableEq

/-- The `for (int i = 0; i < elfHeader.shnum; i++)` loop of `main`, with
`todo = shnum - i` iterations to go. The pointer `name` is
`sectionnames + sectionHeader.name`, and nothing keeps the reads of
`isLoadable` inside the `malloc`ed string table. `none` means that the call of
`isLoadable` read outside the string table, or that a record loop read outside
its buffer. -/
def sectionLoop (file sectionnames : List Nat) (offsetSectHeader bytesSectHeader : Nat)
    (inclMipsSects : Bool) : Nat → Nat → Option Run
  | 0, _ => some ⟨[], none⟩
  | todo + 1, i =>
    match readElf32 file ((offsetSectHeader + i * bytesSectHeader) % 2 ^ 32) sizeofElf32_Shdr 1 with
    | none => some ⟨[], some 9⟩
    | some buf =>
      let sectionHeader := asElf32_Shdr buf
      let name := sectionnames.drop sectionHeader.name
      if sectionHeader.size ≠ 0 && isLoadable.outside name inclMipsSects then none
      else if sectionHeader.size ≠ 0 && isLoadable name inclMipsSects then
        match readElf32 file sectionHeader.offset 1 sectionHeader.size with
        | none => some ⟨[], some 9⟩
        | some sectcontent =>
          let vAddr := sectionHeader.addr
          let paddr := AsPhysical vAddr
          match encodeSection sectionHeader.size paddr sectcontent with
          | none => none
          | some recs =>
            (sectionLoop file sectionnames offsetSectHeader bytesSectHeader inclMipsSects
              todo (i + 1)).map (fun run => ⟨recs ++ run.records, run.status⟩)
      else
        sectionLoop file sectionnames offsetSectHeader bytesSectHeader inclMipsSects
          todo (i + 1)

/-! ## The entry point (`main.cpp` 175-280) -/

/-- `struct Elf32_Ehdr`. -/
structure Elf32_Ehdr where
  e_ident : List Nat
  type : Nat
  machine : Nat
  version : Nat
  entry : Nat
  phoff : Nat
  shoff : Nat
  flags : Nat
  ehsize : Nat
  phentsize : Nat
  phnum : Nat
  shentsize : Nat
  shnum : Nat
  shstrndx : Nat
deriving DecidableEq

/-- `sizeof(Elf32_Ehdr)`: 16 identification bytes, then 2 + 2 + 4 * 5 + 2 * 6
bytes of fields. -/
def sizeofElf32_Ehdr : Nat := 52

/-- `ET_EXEC`. -/
def ET_EXEC : Nat := 2

/-- A 16-bit field stored at byte `off` of a buffer, little-endian as on the
x86_64 host. -/
def field16 (buf : List Nat) (off : Nat) : Nat :=
  buf.getD off 0 + 256 * buf.getD (off + 1) 0

/-- The 52 bytes of an ELF header seen as `Elf32_Ehdr`. -/
def asElf32_Ehdr (buf : List Nat) : Elf32_Ehdr :=
  { e_ident := buf.take 16, type := field16 buf 16, machine := field16 buf 18,
    version := field32 buf 20, entry := field32 buf 24, phoff := field32 buf 28,
    shoff := field32 buf 32, flags := field32 buf 36, ehsize := field16 buf 40,
    phentsize := field16 buf 42, phnum := field16 buf 44, shentsize := field16 buf 46,
    shnum := field16 buf 48, shstrndx := field16 buf 50 }

/-- How a process ended: everything written to `stdout`, and the exit status. -/
structure Outcome where
  stdout : List Char
  status : Nat
deriving DecidableEq

/-- `main`, once the command line has been processed and the ELF file opened:
`boot` is the content of the bootloader file when one was given with `-b`,
`inclMipsSects` the flag set by `-s`, `file` the bytes of the ELF file.
`none` means that the section loop read outside a buffer. -/
def main (boot : Option (List Char)) (inclMipsSects : Bool) (file : List Nat) : Option Outcome :=
  let pasted : List Char := match boot with
    | some content => content
    | none => []
  match readElf32 file 0 sizeofElf32_Ehdr 1 with
  | none => some ⟨pasted, 9⟩
  | some buf =>
    let elfHeader := asElf32_Ehdr buf
    let offsetSectHeader := elfHeader.shoff
    let bytesSectHeader := elfHeader.shentsize
    if elfHeader.type ≠ ET_EXEC then some ⟨pasted, 10⟩
    else if bytesSectHeader ≠ sizeofElf32_Shdr then some ⟨pasted, 11⟩
    else
      let offsetSectnames := (offsetSectHeader + bytesSectHeader * elfHeader.shstrndx) % 2 ^ 32
      match readElf32 file offsetSectnames sizeofElf32_Shdr 1 with
      | none => some ⟨pasted, 9⟩
      | some buf =>
        let SectionNames := asElf32_Shdr buf
        match readElf32 file SectionNames.offset 1 SectionNames.size with
        | none => some ⟨pasted, 9⟩
        | some sectionnames =>
          match sectionLoop file sectionnames offsetSectHeader bytesSectHeader inclMipsSects
              elfHeader.shnum 0 with
          | none => none
          | some run =>
            match run.status with
            | some status => some ⟨pasted ++ run.records.flatten, status⟩
            | none =>
              some ⟨pasted ++ run.records.flatten
                ++ (if boot.isSome then ":00000001FF\x0d\x0a".toList else []), 0⟩

/-! ## Reference notions the properties are stated with -/

/-- The hexadecimal digit of a value `0 .. 15`, uppercase. -/
def hexDigit (d : Nat) : Char := "0123456789ABCDEF".toList.getD d '0'

/-- The number `n` written with exactly `width` hexadecimal digits, most
significant digit first, padded with zeros (digits above `width` are cut). -/
def hexText : Nat → Nat → List Char
  | 0, _ => []
  | width + 1, n => hexDigit (n / 16 ^ width % 16) :: hexText width n

/-- The value of a hexadecimal digit `0-9`, `A-F`. -/
def hexVal (c : Char) : Option Nat :=
  if '0'.toNat ≤ c.toNat ∧ c.toNat ≤ '9'.toNat then some (c.toNat - '0'.toNat)
  else if 'A'.toNat ≤ c.toNat ∧ c.toNat ≤ 'F'.toNat then some (c.toNat - 'A'.toNat + 10)
  else none

/-- The checksum byte of a record whose other bytes are `bs`: the two's
complement, modulo 256, of their sum. -/
def checksumOf (bs : List Nat) : Nat := (256 - bs.sum % 256) % 256

/-- The text of a Data record: `:`, byte count, 16-bit address, type `00`,
payload, checksum, CR LF. -/
def dataRecordText (count address : Nat) (payload : List Nat) : List Char :=
  ":".toList ++ hexText 2 count ++ hexText 4 address ++ "00".toList
    ++ payload.flatMap (hexText 2)
    ++ hexText 2 (checksumOf ([count, address / 256, address % 256, 0] ++ payload))
    ++ "\x0d\x0a".toList

/-- The text of an Extended-Linear-Address record with the 16-bit payload
`upper`: byte count `02`, address `0000`, type `04`, payload, checksum, CR LF. -/
def elaRecordText (upper : Nat) : List Char :=
  ":02000004".toList ++ hexText 4 upper
    ++ hexText 2 (checksumOf [2, 0, 0, 4, upper / 256, upper % 256])
    ++ "\x0d\x0a".toList

/-- Hexadecimal text read as bytes, two digits per byte. -/
def hexPairs : List Char → Option (List Nat)
  | [] => some []
  | [_] => none
  | a :: b :: rest =>
    match hexVal a, hexVal b, hexPairs rest with
    | some x, some y, some bs => some ((16 * x + y) :: bs)
    | _, _, _ => none

/-- The bytes of a record line: the hexadecimal pairs after the leading `:`
and before CR LF. -/
def recordBytes (line : List Char) : Option (List Nat) :=
  match line with
  | ':' :: rest =>
    if rest.drop (rest.length - 2) = "\x0d\x0a".toList then hexPairs (rest.take (rest.length - 2))
    else none
  | _ => none

/-- A decoded Intel HEX record. -/
structure Record where
  count : Nat
  address : Nat
  rtype : Nat
  data : List Nat
  checksum : Nat
deriving DecidableEq

/-- Intel HEX decoding of one line: byte count, big-endian 16-bit address,
record type, `count` payload bytes and the checksum byte. -/
def decodeRecord (line : List Char) : Option Record :=
  match recordBytes line with
  | some (count :: hi :: lo :: rtype :: rest) =>
    if rest.length = count + 1 then
      some ⟨count, 256 * hi + lo, rtype, rest.take count, rest.getD count 0⟩
    else none
  | _ => none

/-- The records the loop writes at the `k`-th Data record of a section
(in-section offset `16 * k`), stated from the record format. -/
def recordsAt (paddr : Nat) (sectcontent : List Nat) (k : Nat) : List (List Char) :=
  (if (16 * k) % 32768 = 0 then [elaRecordText ((paddr + 16 * k) % 2 ^ 32 / 65536)] else [])
    ++ [dataRecordText (min (sectcontent.length - 16 * k) 16) ((paddr + 16 * k) % 65536)
          ((sectcontent.drop (16 * k)).take 16)]

/-- The decoded form of `recordsAt`: what an Intel HEX reader sees at the
`k`-th Data record of a section. -/
def decodedAt (paddr : Nat) (sectcontent : List Nat) (k : Nat) : List Record :=
  (if (16 * k) % 32768 = 0 then
      [⟨2, 0, 4, [(paddr + 16 * k) % 2 ^ 32 / 65536 / 256, (paddr + 16 * k) % 2 ^ 32 / 65536 % 256],
        checksumOf [2, 0, 0, 4, (paddr + 16 * k) % 2 ^ 32 / 65536 / 256,
          (paddr + 16 * k) % 2 ^ 32 / 65536 % 256]⟩]
    else [])
    ++ [⟨min (sectcontent.length - 16 * k) 16, (paddr + 16 * k) % 65536, 0,
          ((sectcontent.drop (16 * k)).take 16).map (· % 256),
          checksumOf ([min (sectcontent.length - 16 * k) 16, (paddr + 16 * k) % 65536 / 256,
            (paddr + 16 * k) % 65536 % 256, 0] ++ (sectcontent.drop (16 * k)).take 16)⟩]

/-- The C string stored at a pointer into a buffer: the bytes before the
first `0`. -/
def cString (mem : List Nat) : List Nat := mem.takeWhile (· ≠ 0)

/-- A buffer of `char`: every entry is a byte. -/
def isBytes (mem : List Nat) : Prop := ∀ c ∈ mem, c < 256

/-- A C string given by its characters: no byte is `0`, every byte fits a
`char`. -/
def isCString (s : List Nat) : Prop := ∀ c ∈ s, 0 < c ∧ c < 256

/-- The allow-list of section-name prefixes: four entries always, five more
unless architecture-specific sections are excluded. -/
def allowList (excludeArchSpecific : Bool) : List (List Nat) :=
  [lit ".text", lit ".rodata", lit ".data", lit ".conf"]
    ++ (if excludeArchSpecific then []
        else [lit ".boot", lit ".start", lit ".tlb", lit ".cache", lit ".special"])

/-- A 32-bit value as its four bytes in the file, least significant first. -/
def bytes32 (x : Nat) : List Nat :=
  [x % 256, x / 256 % 256, x / 65536 % 256, x / 16777216 % 256]

/-- A section header as its 40 bytes in the file. -/
def bytesOfShdr (h : Elf32_Shdr) : List Nat :=
  bytes32 h.name ++ bytes32 h.type ++ bytes32 h.flags ++ bytes32 h.addr ++ bytes32 h.offset
    ++ bytes32 h.size ++ bytes32 h.link ++ bytes32 h.info ++ bytes32 h.addralign
    ++ bytes32 h.entsize

/-- The section headers of a small file: the null section, `.text` with 4
bytes at virtual address `0x9D000000`, an empty `.data`, and `.bss`. -/
def sampleHeaders : List Elf32_Shdr :=
  [⟨0, 0, 0, 0, 0, 0, 0, 0, 0, 0⟩,
   ⟨1, 1, 6, 0x9D000000, 160, 4, 0, 0, 4, 0⟩,
   ⟨7, 1, 3, 0x80000000, 164, 0, 0, 0, 4, 0⟩,
   ⟨13, 8, 3, 0x80000000, 160, 4, 0, 0, 4, 0⟩]

/-- A small file: the four section headers at offset 0, then the bytes
`DE AD BE EF` at offset 160. -/
def sampleFile : List Nat := sampleHeaders.flatMap bytesOfShdr ++ [0xDE, 0xAD, 0xBE, 0xEF]

/-- The section name string table of the small file. -/
def sampleNames : List Nat := [0] ++ lit ".text" ++ [0] ++ lit ".data" ++ [0] ++ lit ".bss" ++ [0]

/-- The value of a string of hexadecimal digits read as a base-16 number,
most significant digit first; `none` when a character is not a digit. -/
def hexNumber (cs : List Char) : Option Nat :=
  cs.foldl (fun acc c => acc.bind fun a => (hexVal c).map fun v => 16 * a + v) (some 0)

/-- Standard Intel HEX address decoding: the 32-bit address of each Data record
(type 0) of a list of records, in order. `upper` is the payload of the most
recent Extended-Linear-Address record (type 4), the upper 16 bits; the record's
own address field gives the lower 16 bits. -/
def dataAddresses : Nat → List Record → List Nat
  | _, [] => []
  | upper, r :: rs =>
    if r.rtype = 4 then dataAddresses (256 * r.data.getD 0 0 + r.data.getD 1 0) rs
    else if r.rtype = 0 then (65536 * upper + r.address) :: dataAddresses upper rs
    else dataAddresses upper rs

/-- A 16-bit value as its two bytes in the file, least significant first. -/
def bytes16 (x : Nat) : List Nat := [x % 256, x / 256 % 256]

/-- The ELF header of a small ELF file with the given type and section-header
entry size: MIPS, section-header table at offset 52 with 5 entries, the last
one the section name string table. -/
def sampleEhdr (type shentsize : Nat) : List Nat :=
  [0x7f, 0x45, 0x4c, 0x46, 1, 1, 1, 0, 0, 0, 0, 0, 0, 0, 0, 0]
    ++ bytes16 type ++ bytes16 8 ++ bytes32 1 ++ bytes32 0x9D000000 ++ bytes32 0 ++ bytes32 52
    ++ bytes32 0 ++ bytes16 52 ++ bytes16 32 ++ bytes16 0 ++ bytes16 shentsize ++ bytes16 5
    ++ bytes16 4

/-- The section name string table of the small ELF file. -/
def sampleElfNames : List Nat :=
  [0] ++ lit ".text" ++ [0] ++ lit ".data" ++ [0] ++ lit ".bss" ++ [0] ++ lit ".shstrtab" ++ [0]

/-- The section headers of the small ELF file: the null section, `.text` with
4 bytes at file offset `textOffset` and virtual address `0x9D000000`, an empty
`.data`, `.bss`, and the string table at file offset 256. -/
def sampleElfHeaders (textOffset : Nat) : List Elf32_Shdr :=
  [⟨0, 0, 0, 0, 0, 0, 0, 0, 0, 0⟩,
   ⟨1, 1, 6, 0x9D000000, textOffset, 4, 0, 0, 4, 0⟩,
   ⟨7, 1, 3, 0x80000000, 256, 0, 0, 0, 4, 0⟩,
   ⟨13, 8, 3, 0x80000000, 256, 4, 0, 0, 4, 0⟩,
   ⟨18, 3, 0, 0, 256, 28, 0, 0, 1, 0⟩]

/-- A small ELF file of 284 bytes with the given type, section-header entry
size and file offset of the content of `.text`: ELF header, five section
headers, the bytes `DE AD BE EF` at offset 252, the section names at offset
256. -/
def sampleElf (type shentsize textOffset : Nat) : List Nat :=
  sampleEhdr type shentsize ++ (sampleElfHeaders textOffset).flatMap bytesOfShdr
    ++ [0xDE, 0xAD, 0xBE, 0xEF] ++ sampleElfNames

/-- The reads of `main` before the section loop succeed and the two header
checks pass: `buf` is the ELF header, `nbuf` the header of the string table
section, `sectionnames` the string table. -/
def ReadsTables (file buf nbuf sectionnames : List Nat) : Prop :=
  readElf32 file 0 sizeofElf32_Ehdr 1 = some buf ∧
  (asElf32_Ehdr buf).type = 2 ∧ (asElf32_Ehdr buf).shentsize = 40 ∧
  readElf32 file (((asElf32_Ehdr buf).shoff + 40 * (asElf32_Ehdr buf).shstrndx) % 2 ^ 32)
    sizeofElf32_Shdr 1 = some nbuf ∧
  readElf32 file (asElf32_Shdr nbuf).offset 1 (asElf32_Shdr nbuf).size = some sectionnames

/-- The entries `0`, `1`, ... of the section-header table at file offset
`offsetSectHeader` read as `hdrs`. -/
def ReadsHeaders (file : List Nat) (offsetSectHeader : Nat) (hdrs : List Elf32_Shdr) : Prop :=
  ∀ i, i < hdrs.length →
    (readElf32 file ((offsetSectHeader + i * 40) % 2 ^ 32) sizeofElf32_Shdr 1).map asElf32_Shdr
      = hdrs[i]?

/-- A section content of 32784 bytes, the values `0 .. 250` in turn: it spans
the in-section offset 32768. -/
def crossingContent : List Nat := (List.range 32784).map (· % 251)

/-- A section content of `2^32 - 15` bytes, all `0`. -/
def largeContent : List Nat := List.replicate (2 ^ 32 - 15) 0

theorem hexChar_eq (x : Nat) (hx : x < 16) :
    (if x < 10 then Char.ofNat ('0'.toNat + x) else Char.ofNat ('A'.toNat - 10 + x))
      = hexDigit x := by
  interval_cases x <;> decide

theorem Hex.print_eq (buf : List Nat) (n : Nat) :
    ∀ digits, (∀ i, i < digits → buf.getD i 0 = n / 16 ^ i % 16) →
      Hex.print buf digits = hexText digits n
  | 0, _ => rfl
  | digits + 1, h => by
    have h1 := h digits (Nat.lt_succ_self _)
    have h2 : n / 16 ^ digits % 16 < 16 := Nat.mod_lt _ (by decide)
    simp only [Hex.print, hexText, h1, hexChar_eq _ h2]
    rw [Hex.print_eq buf n digits (fun i hi => h i (Nat.lt_succ_of_lt hi))]

theorem Hex.fill_getD : ∀ (room : Nat) (buf : List Nat) (k n i : Nat),
    buf.length = 16 → k + room = 16 → (∀ j, k ≤ j → buf.getD j 0 = 0) → i < 16 →
    (Hex.fill room buf k n).getD i 0 = if i < k then buf.getD i 0 else n / 16 ^ (i - k) % 16
  | 0, buf, k, n, i, _, hk, _, hi => by
    have : i < k := by omega
    simp [Hex.fill, this]
  | room + 1, buf, k, n, i, hlen, hk, hz, hi => by
    have hset : ∀ j, (buf.set k (n % 16)).getD j 0 = if j = k then n % 16 else buf.getD j 0 := by
      intro j
      by_cases hj : j = k
      · subst hj
        simp [List.getD_eq_getElem?_getD, List.getElem?_set, show j < buf.length by omega]
      · simp [List.getD_eq_getElem?_getD, List.getElem?_set, hj, Ne.symm hj]
    have hpow : ∀ m, n / 16 / 16 ^ m = n / 16 ^ (m + 1) := by
      intro m
      rw [Nat.div_div_eq_div_mul, pow_succ, Nat.mul_comm]
    simp only [Hex.fill]
    split
    · rw [Hex.fill_getD room _ (k + 1) (n / 16) i (by simp [hlen]) (by omega)
        (fun j hj => by rw [hset, if_neg (by omega)]; exact hz j (by omega)) hi]
      rw [hset]
      by_cases h1 : i < k
      · simp [h1, show i < k + 1 by omega, show i ≠ k by omega]
      · by_cases h2 : i = k
        · subst h2; simp
        · simp only [h1, show ¬ i < k + 1 by omega, if_false, hpow]
          congr 3; omega
    · rename_i hn
      have hn0 : n / 16 = 0 := by simpa using hn
      rw [hset]
      by_cases h1 : i < k
      · simp [h1, show i ≠ k by omega]
      · by_cases h2 : i = k
        · subst h2; simp
        · simp only [h1, h2, if_false, hz i (by omega)]
          have : n / 16 ^ (i - k) = 0 := by
            have e : i - k = (i - k - 1) + 1 := by omega
            rw [e, ← hpow, hn0, Nat.zero_div]
          simp [this]

/-- `Hex` writes the low `digits` hexadecimal digits of `n`, most significant
first, for every width the 16-entry buffer allows. -/
theorem Hex_eq_hexText (n digits : Nat) (hd : digits ≤ 16) : Hex n digits = hexText digits n := by
  unfold Hex
  apply Hex.print_eq
  intro i hi
  rw [Hex.fill_getD 16 _ 0 n i (by simp) (by omega) (fun j _ => by
    simp only [List.getD_eq_getElem?_getD, List.getElem?_replicate]
    split <;> rfl) (by omega)]
  simp

theorem hexText_two (n : Nat) : hexText 2 n = [hexDigit (n / 16 % 16), hexDigit (n % 16)] := by
  simp [hexText]

theorem hexText_two_mod (n : Nat) : hexText 2 (n % 256) = hexText 2 n := by
  rw [hexText_two, hexText_two]
  have e1 : n % 256 / 16 % 16 = n / 16 % 16 := by omega
  have e2 : n % 256 % 16 = n % 16 := by omega
  rw [e1, e2]

theorem hexText_four (n : Nat) : hexText 4 n = hexText 2 (n / 256) ++ hexText 2 n := by
  simp only [hexText, pow_zero, Nat.div_one, pow_one, List.cons_append, List.nil_append]
  have e1 : n / 16 ^ 3 % 16 = n / 256 / 16 % 16 := by omega
  have e2 : n / 16 ^ 2 % 16 = n / 256 % 16 := by omega
  rw [e1, e2]

theorem Hex_two (n : Nat) : Hex n 2 = hexText 2 n := Hex_eq_hexText n 2 (by decide)

theorem Hex_negU64 (c : Nat) (hc : c < 256) :
    Hex (negU64 c) 2 = hexText 2 ((256 - c) % 256) := by
  rw [Hex_two, ← hexText_two_mod (negU64 _)]
  congr 1
  unfold negU64
  omega

theorem mask16 (x : Nat) : 0xFFFF &&& x = x % 65536 := by
  rw [Nat.and_comm]
  exact Nat.and_pow_two_sub_one_eq_mod x 16

theorem mask8 (x : Nat) : 0xff &&& x = x % 256 := by
  rw [Nat.and_comm]
  exact Nat.and_pow_two_sub_one_eq_mod x 8

/-! ## The two record writers -/

theorem emitIntelExtendedLinAddr_eq (a : Nat) :
    emitIntelExtendedLinAddr a = elaRecordText (a / 65536 % 65536) := by
  unfold emitIntelExtendedLinAddr elaRecordText
  simp only [mask8, Nat.shiftRight_eq_div_pow]
  rw [Hex_two, Hex_two, Hex_negU64 _ (Nat.mod_lt _ (by decide)), hexText_four]
  have e1 : a / 65536 % 65536 / 256 = a / 2 ^ 24 % 256 := by omega
  have e2 : hexText 2 (a / 65536 % 65536) = hexText 2 (a / 2 ^ 16 % 256) := by
    rw [← hexText_two_mod (a / 65536 % 65536)]
    congr 1; omega
  have e3 : checksumOf [2, 0, 0, 4, a / 65536 % 65536 / 256, a / 65536 % 65536 % 256]
      = (256 - (6 + a / 2 ^ 24 % 256 + a / 2 ^ 16 % 256) % 256) % 256 := by
    simp only [checksumOf, List.sum_cons, List.sum_nil]
    omega
  rw [e3, e2, e1]
  simp only [List.append_assoc]

/-- Below `2^32 - 15` bytes the index of `main.cpp` 265 does not wrap: it is
the in-section offset of the byte. -/
theorem payloadIndex_eq (i size bytesleft : Nat) (hi : i < 16) (hs : size + 15 < 2 ^ 32)
    (hb : bytesleft ≤ size) : payloadIndex i size bytesleft = i + size - bytesleft := by
  unfold payloadIndex
  omega

/-- The payload and checksum accumulated by the `for` loop of a pass that
stays inside the buffer. -/
theorem payload_foldl (sectcontent : List Nat) (size bytesleft : Nat)
    (hlen : sectcontent.length = size) (hs : size + 15 < 2 ^ 32) (hb : bytesleft ≤ size) :
    ∀ (count : Nat) (acc : List Char × Nat), acc.2 < 256 → count ≤ min bytesleft 16 →
      (List.range count).foldl
        (fun (acc : Option (List Char × Nat)) i =>
          match acc, sectcontent[payloadIndex i size bytesleft]? with
          | some acc, some data => some (acc.1 ++ Hex data 2, (acc.2 + data) % 256)
          | _, _ => none) (some acc)
      = some (acc.1 ++ ((List.range count).map
            (fun i => sectcontent.getD (i + size - bytesleft) 0)).flatMap (hexText 2),
         (acc.2 + ((List.range count).map
            (fun i => sectcontent.getD (i + size - bytesleft) 0)).sum) % 256)
  | 0, acc, h, _ => by
    simp [Nat.mod_eq_of_lt h]
  | count + 1, acc, h, hc => by
    rw [List.range_succ, List.foldl_append,
      payload_foldl sectcontent size bytesleft hlen hs hb count acc h (by omega)]
    have hin : count + size - bytesleft < sectcontent.length := by omega
    simp only [List.foldl_cons, List.foldl_nil, payloadIndex_eq count size bytesleft (by omega) hs hb,
      List.getElem?_eq_getElem hin, List.getD_eq_getElem?_getD, Option.getD_some,
      List.map_append, List.map_cons, List.map_nil,
      List.flatMap_append, List.flatMap_cons, List.flatMap_nil, List.sum_append, List.sum_cons,
      List.sum_nil, List.append_nil, Hex_two, List.append_assoc, Nat.add_zero]
    congr 2
    omega

theorem payload_eq_take (sectcontent : List Nat) (off count : Nat)
    (h : off + count ≤ sectcontent.length) :
    (List.range count).map (fun i => sectcontent.getD (i + off) 0)
      = (sectcontent.drop off).take count := by
  apply List.ext_getElem
  · simp; omega
  · intro i h1 h2
    simp only [List.length_map, List.length_range] at h1
    have h3 : off + i < sectcontent.length := by omega
    simp [List.getD_eq_getElem?_getD, Nat.add_comm i off, List.getElem?_eq_getElem h3]

theorem take_min_length (l : List Nat) (b : Nat) (h : l.length = b) :
    l.take (min b 16) = l.take 16 := by
  by_cases hb : b ≤ 16
  · rw [Nat.min_eq_left hb, List.take_of_length_le (by omega), List.take_of_length_le (by omega)]
  · rw [Nat.min_eq_right (by omega)]

/-- One pass of the record loop, in terms of the record format: with
`bytesleft` bytes to go at in-section offset `16 * k`, the pass writes
`recordsAt paddr sectcontent k`. -/
theorem again.body_eq (size paddr : Nat) (sectcontent : List Nat) (bytesleft k : Nat)
    (hlen : sectcontent.length = size) (hs : size + 15 < 2 ^ 32) (hb : bytesleft ≤ size)
    (hk : size - bytesleft = 16 * k) :
    again.body size paddr sectcontent bytesleft
      = some (recordsAt paddr sectcontent k, bytesleft - min bytesleft 16) := by
  have hcount : min bytesleft 16 % 256 = min bytesleft 16 := by
    apply Nat.mod_eq_of_lt; omega
  have hidx : (fun i => sectcontent.getD (i + size - bytesleft) 0)
      = (fun i => sectcontent.getD (i + 16 * k) 0) := by
    funext i
    congr 1; omega
  have hpay : (List.range (min bytesleft 16)).map (fun i => sectcontent.getD (i + 16 * k) 0)
      = (sectcontent.drop (16 * k)).take 16 := by
    rw [payload_eq_take _ _ _ (by omega), take_min_length _ _ (by simp; omega)]
  have hoff : (size + 2 ^ 64 - bytesleft) % 2 ^ 64 = 16 * k := by omega
  unfold again.body recordsAt
  simp only [hoff, mask16, mask8, Nat.shiftRight_eq_div_pow]
  rw [payload_foldl _ _ _ hlen hs hb _ _ (Nat.mod_lt _ (by decide)) (Nat.le_refl _)]
  simp only [hk]
  rw [hidx, hpay, Hex_negU64 _ (Nat.mod_lt _ (by decide)), Hex_two, Hex_two,
    Hex_eq_hexText _ 4 (by decide)]
  have hsz : sectcontent.length - 16 * k = bytesleft := by omega
  have hmod : (paddr + 16 * k) % 2 ^ 32 / 65536 % 65536 = (paddr + 16 * k) % 2 ^ 32 / 65536 := by
    omega
  have hzero : hexText 2 0 = "00".toList := by decide
  rw [emitIntelExtendedLinAddr_eq, hmod, hsz, hzero]
  have harith : ∀ t : Nat,
      (256 - (((min bytesleft 16 % 256 + (paddr + 16 * k) % 65536 % 256) % 256
          + (paddr + 16 * k) % 65536 / 2 ^ 8 % 256) % 256 + t) % 256) % 256
      = (256 - (min bytesleft 16 + ((paddr + 16 * k) % 65536 / 256
          + ((paddr + 16 * k) % 65536 % 256 + (0 + t)))) % 256) % 256 := by
    intro t; omega
  unfold dataRecordText checksumOf
  simp only [List.sum_cons, List.sum_append, List.nil_append, List.cons_append,
    List.sum_nil, Nat.add_zero, harith]

theorem chunks_succ (b : Nat) (h : 16 < b) : (b + 15) / 16 = (b - 16 + 15) / 16 + 1 := by
  omega

/-- The record loop finishes, and writes `recordsAt` for each in-section
offset `16 * k`, `16 * (k + 1)`, ... up to the end of the section. -/
theorem again_eq (size paddr : Nat) (sectcontent : List Nat) (hlen : sectcontent.length = size)
    (hs : size + 15 < 2 ^ 32) :
    ∀ (fuel bytesleft k : Nat), 0 < bytesleft → bytesleft ≤ size → size - bytesleft = 16 * k →
      bytesleft ≤ fuel →
      again size paddr sectcontent fuel bytesleft
        = some ((List.range' k ((bytesleft + 15) / 16)).flatMap (recordsAt paddr sectcontent))
  | 0, bytesleft, k, h0, _, _, hf => by omega
  | fuel + 1, bytesleft, k, h0, hb, hk, hf => by
    rw [again, again.body_eq size paddr sectcontent bytesleft k hlen hs hb hk]
    by_cases h16 : 16 < bytesleft
    · have hmin : min bytesleft 16 = 16 := Nat.min_eq_right (by omega)
      simp only [hmin, show bytesleft - 16 > 0 by omega, if_true]
      rw [again_eq size paddr sectcontent hlen hs fuel (bytesleft - 16) (k + 1) (by omega) (by omega)
        (by omega) (by omega), chunks_succ bytesleft h16, List.range'_succ]
      simp
    · have hmin : min bytesleft 16 = bytesleft := Nat.min_eq_left (by omega)
      have hone : (bytesleft + 15) / 16 = 1 := by omega
      simp [hmin, hone]

/-- Closed form of the per-section encoder: a section of `n > 0` bytes, `n`
below `2^32 - 15`, yields the records `recordsAt` of the offsets
`0, 16, 32, ...` below `n`, in this order. In particular the record loop stays
inside the buffer and terminates. -/
theorem encodeSection_eq (paddr : Nat) (sectcontent : List Nat) (h : 0 < sectcontent.length)
    (hs : sectcontent.length + 15 < 2 ^ 32) :
    encodeSection sectcontent.length paddr sectcontent
      = some ((List.range ((sectcontent.length + 15) / 16)).flatMap
          (recordsAt paddr sectcontent)) := by
  unfold encodeSection
  rw [again_eq _ paddr sectcontent rfl hs _ _ 0 h (Nat.le_refl _) (by simp) (by omega),
    List.range_eq_range']

/-! ## Reading records back -/

theorem hexVal_hexDigit (d : Nat) (hd : d < 16) : hexVal (hexDigit d) = some d := by
  interval_cases d <;> rfl

theorem hexPairs_cons_cons (a b : Char) (rest : List Char) (x y : Nat)
    (ha : hexVal a = some x) (hb : hexVal b = some y) :
    hexPairs (a :: b :: rest) = (hexPairs rest).map (fun bs => (16 * x + y) :: bs) := by
  rw [hexPairs, ha, hb]
  cases hexPairs rest <;> rfl

theorem hexPairs_hexText (b : Nat) (rest : List Char) :
    hexPairs (hexText 2 b ++ rest) = (hexPairs rest).map (fun bs => b % 256 :: bs) := by
  have e : 16 * (b / 16 % 16) + b % 16 = b % 256 := by omega
  rw [hexText_two, ← e]
  exact hexPairs_cons_cons _ _ rest _ _ (hexVal_hexDigit _ (Nat.mod_lt (b / 16) (by decide)))
    (hexVal_hexDigit _ (Nat.mod_lt b (by decide)))

theorem hexPairs_flatMap : ∀ bs : List Nat,
    hexPairs (bs.flatMap (hexText 2)) = some (bs.map (· % 256))
  | [] => rfl
  | b :: bs => by
    rw [List.flatMap_cons, hexPairs_hexText, hexPairs_flatMap bs]
    rfl

/-- The line made of `:`, the bytes `bs` in hexadecimal and CR LF reads back
as `bs`. -/
theorem recordBytes_line (bs : List Nat) :
    recordBytes (':' :: (bs.flatMap (hexText 2) ++ ['\x0d', '\x0a'])) = some (bs.map (· % 256)) := by
  have h2 : (bs.flatMap (hexText 2) ++ ['\x0d', '\x0a']).length - 2
      = (bs.flatMap (hexText 2)).length := by simp
  have hcrlf : "\x0d\x0a".toList = ['\x0d', '\x0a'] := rfl
  simp only [recordBytes, h2, List.drop_left, List.take_left, hcrlf, if_true, hexPairs_flatMap]

theorem dataRecordText_eq (count address : Nat) (payload : List Nat) :
    dataRecordText count address payload
      = ':' :: (([count, address / 256, address % 256, 0] ++ payload
          ++ [checksumOf ([count, address / 256, address % 256, 0] ++ payload)]).flatMap
            (hexText 2) ++ ['\x0d', '\x0a']) := by
  have hzero : "00".toList = hexText 2 0 := by decide
  have hcolon : ":".toList = [':'] := rfl
  have hcrlf : "\x0d\x0a".toList = ['\x0d', '\x0a'] := rfl
  unfold dataRecordText
  rw [hexText_four, ← hexText_two_mod address, hzero, hcolon, hcrlf]
  simp only [List.flatMap_append, List.flatMap_cons, List.flatMap_nil, List.append_nil,
    List.append_assoc, List.cons_append, List.nil_append]

theorem elaRecordText_eq (upper : Nat) :
    elaRecordText upper
      = ':' :: ([2, 0, 0, 4, upper / 256, upper % 256,
          checksumOf [2, 0, 0, 4, upper / 256, upper % 256]].flatMap (hexText 2)
            ++ ['\x0d', '\x0a']) := by
  have hhead : ":02000004".toList
      = ':' :: (hexText 2 2 ++ hexText 2 0 ++ hexText 2 0 ++ hexText 2 4) := by decide
  have hcrlf : "\x0d\x0a".toList = ['\x0d', '\x0a'] := rfl
  unfold elaRecordText
  rw [hexText_four, ← hexText_two_mod upper, hhead, hcrlf]
  simp only [List.flatMap_cons, List.flatMap_nil, List.append_nil,
    List.append_assoc, List.cons_append, List.nil_append]

theorem sum_map_mod : ∀ l : List Nat, (l.map (· % 256)).sum % 256 = l.sum % 256
  | [] => rfl
  | a :: l => by
    have ih := sum_map_mod l
    simp only [List.map_cons, List.sum_cons]
    omega

/-- A list of bytes closed by its `checksumOf` sums to `0` modulo 256. -/
theorem sum_with_checksum (bs : List Nat) :
    ((bs ++ [checksumOf bs]).map (· % 256)).sum % 256 = 0 := by
  rw [sum_map_mod, List.sum_append]
  simp only [checksumOf, List.sum_cons, List.sum_nil]
  omega

theorem recordBytes_dataRecordText (count address : Nat) (payload : List Nat) :
    ∃ bytes, recordBytes (dataRecordText count address payload) = some bytes
      ∧ bytes.sum % 256 = 0 := by
  rw [dataRecordText_eq, recordBytes_line]
  exact ⟨_, rfl, sum_with_checksum _⟩

theorem recordBytes_elaRecordText (upper : Nat) :
    ∃ bytes, recordBytes (elaRecordText upper) = some bytes ∧ bytes.sum % 256 = 0 := by
  rw [elaRecordText_eq, recordBytes_line]
  exact ⟨_, rfl, sum_with_checksum [2, 0, 0, 4, upper / 256, upper % 256]⟩

theorem checksumOf_lt (bs : List Nat) : checksumOf bs < 256 := Nat.mod_lt _ (by decide)

theorem decodeRecord_dataRecordText (count address : Nat) (payload : List Nat)
    (hc : count = payload.length) (hc256 : count < 256) :
    decodeRecord (dataRecordText count address payload)
      = some ⟨count, address % 65536, 0, payload.map (· % 256),
          checksumOf ([count, address / 256, address % 256, 0] ++ payload)⟩ := by
  unfold decodeRecord
  rw [dataRecordText_eq, recordBytes_line]
  have e1 : 256 * (address / 256 % 256) + address % 256 % 256 = address % 65536 := by omega
  have e2 : count % 256 = count := Nat.mod_eq_of_lt hc256
  have e3 := Nat.mod_eq_of_lt (checksumOf_lt ([count, address / 256, address % 256, 0] ++ payload))
  have e4 : (List.map (· % 256) payload).length = count := by simp [hc]
  simp only [List.map_append, List.map_cons, List.map_nil, List.cons_append, List.nil_append,
    e1, e2, e3, List.length_append, List.length_cons, List.length_nil, e4, if_true,
    List.take_left' e4, List.getD_eq_getElem?_getD]
  rw [List.getElem?_append_right (by omega)]
  simp [e4]
  exact checksumOf_lt _

theorem decodeRecord_elaRecordText (upper : Nat) :
    decodeRecord (elaRecordText upper)
      = some ⟨2, 0, 4, [upper / 256 % 256, upper % 256],
          checksumOf [2, 0, 0, 4, upper / 256, upper % 256]⟩ := by
  unfold decodeRecord
  rw [elaRecordText_eq, recordBytes_line]
  have e3 := Nat.mod_eq_of_lt (checksumOf_lt [2, 0, 0, 4, upper / 256, upper % 256])
  simp [e3]

theorem length_take_drop (l : List Nat) (k : Nat) :
    min (l.length - 16 * k) 16 = ((l.drop (16 * k)).take 16).length := by
  simp [Nat.min_comm]

/-- Every line of `recordsAt` is a well-formed Data or Extended-Linear-Address
record whose bytes sum to `0` modulo 256. -/
theorem recordsAt_checksum (paddr : Nat) (sectcontent : List Nat) (k : Nat) (line : List Char)
    (h : line ∈ recordsAt paddr sectcontent k) :
    ∃ bytes r, recordBytes line = some bytes ∧ decodeRecord line = some r
      ∧ (r.rtype = 0 ∨ r.rtype = 4) ∧ bytes.sum % 256 = 0 := by
  unfold recordsAt at h
  rw [List.mem_append] at h
  rcases h with h | h
  · split at h
    · rw [List.mem_singleton.mp h]
      obtain ⟨bytes, hb, hs⟩ := recordBytes_elaRecordText ((paddr + 16 * k) % 2 ^ 32 / 65536)
      exact ⟨bytes, _, hb, decodeRecord_elaRecordText _, Or.inr rfl, hs⟩
    · simp at h
  · rw [List.mem_singleton.mp h]
    obtain ⟨bytes, hb, hs⟩ := recordBytes_dataRecordText (min (sectcontent.length - 16 * k) 16)
      ((paddr + 16 * k) % 65536) ((sectcontent.drop (16 * k)).take 16)
    exact ⟨bytes, _, hb, decodeRecord_dataRecordText _ _ _ (length_take_drop _ _) (by omega),
      Or.inl rfl, hs⟩

theorem map_decodeRecord_recordsAt (paddr : Nat) (sectcontent : List Nat) (k : Nat) :
    (recordsAt paddr sectcontent k).map decodeRecord
      = (decodedAt paddr sectcontent k).map some := by
  have hd := decodeRecord_dataRecordText (min (sectcontent.length - 16 * k) 16)
    ((paddr + 16 * k) % 65536) ((sectcontent.drop (16 * k)).take 16)
    (length_take_drop _ _) (by omega)
  have he := decodeRecord_elaRecordText ((paddr + 16 * k) % 2 ^ 32 / 65536)
  have e1 : (paddr + 16 * k) % 2 ^ 32 / 65536 / 256 % 256
      = (paddr + 16 * k) % 2 ^ 32 / 65536 / 256 := by omega
  have e2 : (paddr + 16 * k) % 65536 % 65536 = (paddr + 16 * k) % 65536 := by omega
  unfold recordsAt decodedAt
  split <;>
    simp only [List.map_append, List.map_cons, List.map_nil, List.nil_append, hd, he, e1, e2]

theorem map_decodeRecord_flatMap (paddr : Nat) (sectcontent : List Nat) : ∀ ks : List Nat,
    (ks.flatMap (recordsAt paddr sectcontent)).map decodeRecord
      = (ks.flatMap (decodedAt paddr sectcontent)).map some
  | [] => rfl
  | k :: ks => by
    simp only [List.flatMap_cons, List.map_append, map_decodeRecord_recordsAt,
      map_decodeRecord_flatMap paddr sectcontent ks]

theorem length_hexText : ∀ width n : Nat, (hexText width n).length = width
  | 0, _ => rfl
  | width + 1, n => by simp [hexText, length_hexText width n]

theorem schar_ne_zero (c : Nat) (h0 : 0 < c) (h : c < 256) : schar c ≠ 0 := by
  unfold schar; omega

theorem diff_eq_zero_iff (c d : Nat) (hc : c < 256) (hd : d < 256) :
    (schar c - schar d + 128) % 256 - 128 = 0 ↔ c = d := by
  unfold schar; omega

theorem cString_nil : cString [] = [] := rfl

theorem cString_cons_zero (s : List Nat) : cString (0 :: s) = [] := by
  simp [cString]

theorem cString_cons (c : Nat) (s : List Nat) (hc : c ≠ 0) :
    cString (c :: s) = c :: cString s := by
  simp [cString, hc]

theorem IsPrefixOrEqual.again_ne_zero_iff : ∀ (s p : List Nat), isBytes s → isCString p →
    (IsPrefixOrEqual.again s p ≠ 0 ↔ p <+: cString s)
  | [], [], _, _ => by simp [IsPrefixOrEqual.again, deref, cString_nil]
  | [], d :: p, _, hp => by
    have hd := (hp d (List.mem_cons_self _ _)).1
    simp [IsPrefixOrEqual.again, deref, Nat.ne_of_gt hd, cString_nil]
  | c :: s, [], hs, _ => by
    have hc := hs c (List.mem_cons_self _ _)
    by_cases h0 : c = 0
    · simp [IsPrefixOrEqual.again, deref, h0]
    · simp [IsPrefixOrEqual.again, deref, h0, schar_ne_zero c (Nat.pos_of_ne_zero h0) hc]
  | c :: s, d :: p, hs, hp => by
    have hc := hs c (List.mem_cons_self _ _)
    have hd := hp d (List.mem_cons_self _ _)
    have ih := IsPrefixOrEqual.again_ne_zero_iff s p
      (fun x hx => hs x (List.mem_cons_of_mem _ hx)) (fun x hx => hp x (List.mem_cons_of_mem _ hx))
    have hdiff := diff_eq_zero_iff c d hc hd.2
    by_cases h0 : c = 0
    · subst h0
      simp [IsPrefixOrEqual.again, deref, Nat.ne_of_gt hd.1, cString_cons_zero]
    · rw [cString_cons c s h0]
      simp only [IsPrefixOrEqual.again, deref, List.headD_cons, List.tail_cons,
        h0, Nat.ne_of_gt hd.1, false_and, and_false, if_false, ne_eq, not_false_eq_true,
        List.cons_prefix_cons]
      by_cases hcd : c = d
      · subst hcd
        simp only [hdiff.mpr rfl, not_true_eq_false, if_false, true_and]
        exact ih
      · have : ¬ ((schar c - schar d + 128) % 256 - 128 = 0) := fun h => hcd (hdiff.mp h)
        simp only [this, not_false_eq_true, if_true, not_true_eq_false, false_iff, not_and]
        intro h
        exact absurd h.symm hcd

/-- `IsPrefixOrEqual` answers non-zero exactly when the second string is a
prefix of the C string under the first pointer (or equal to it). -/
theorem IsPrefixOrEqual_ne_zero_iff (s p : List Nat) (hs : isBytes s) (hp : isCString p) :
    IsPrefixOrEqual s p ≠ 0 ↔ p <+: cString s := by
  cases s with
  | nil =>
    cases p with
    | nil => simp [IsPrefixOrEqual, deref, cString_nil]
    | cons d p =>
      have hd := (hp d (List.mem_cons_self _ _)).1
      simp [IsPrefixOrEqual, deref, Nat.ne_of_gt hd, cString_nil]
  | cons c s =>
    have hc := hs c (List.mem_cons_self _ _)
    by_cases h0 : c = 0
    · subst h0
      cases p with
      | nil => simp [IsPrefixOrEqual, deref]
      | cons d p =>
        have hd := (hp d (List.mem_cons_self _ _)).1
        simp [IsPrefixOrEqual, deref, Nat.ne_of_gt hd, cString_cons_zero]
    · cases p with
      | nil =>
        simp [IsPrefixOrEqual, deref, h0, schar_ne_zero c (Nat.pos_of_ne_zero h0) hc]
      | cons d p =>
        have hd := (hp d (List.mem_cons_self _ _)).1
        have h := IsPrefixOrEqual.again_ne_zero_iff (c :: s) (d :: p) hs hp
        simpa [IsPrefixOrEqual, deref, h0, Nat.ne_of_gt hd] using h

theorem isCString_lits :
    isCString (lit ".text") ∧ isCString (lit ".rodata") ∧ isCString (lit ".data") ∧
    isCString (lit ".conf") ∧ isCString (lit ".boot") ∧ isCString (lit ".start") ∧
    isCString (lit ".tlb") ∧ isCString (lit ".cache") ∧ isCString (lit ".special") := by
  unfold isCString
  decide

/-- With the flag set the classifier compares the first four prefixes only. -/
theorem isLoadable_true_iff (name : List Nat) (hname : isBytes name) :
    isLoadable name true = true ↔
      (lit ".text" <+: cString name ∨ lit ".rodata" <+: cString name ∨
        lit ".data" <+: cString name ∨ lit ".conf" <+: cString name) := by
  obtain ⟨h1, h2, h3, h4, -⟩ := isCString_lits
  have e1 := IsPrefixOrEqual_ne_zero_iff name _ hname h1
  have e2 := IsPrefixOrEqual_ne_zero_iff name _ hname h2
  have e3 := IsPrefixOrEqual_ne_zero_iff name _ hname h3
  have e4 := IsPrefixOrEqual_ne_zero_iff name _ hname h4
  simp only [isLoadable, if_true, List.set, isLoadable.loop]
  by_cases p1 : IsPrefixOrEqual name (lit ".text") ≠ 0
  · simp [p1, e1.mp p1]
  by_cases p2 : IsPrefixOrEqual name (lit ".rodata") ≠ 0
  · simp [p1, p2, e2.mp p2]
  by_cases p3 : IsPrefixOrEqual name (lit ".data") ≠ 0
  · simp [p1, p2, p3, e3.mp p3]
  by_cases p4 : IsPrefixOrEqual name (lit ".conf") ≠ 0
  · simp [p1, p2, p3, p4, e4.mp p4]
  · simp only [p1, p2, p3, p4, if_false, Bool.false_eq_true, false_iff]
    rw [← e1, ← e2, ← e3, ← e4]
    tauto

/-- With the flag clear the classifier compares all nine prefixes. -/
theorem isLoadable_false_iff (name : List Nat) (hname : isBytes name) :
    isLoadable name false = true ↔
      (lit ".text" <+: cString name ∨ lit ".rodata" <+: cString name ∨
        lit ".data" <+: cString name ∨ lit ".conf" <+: cString name ∨
        lit ".boot" <+: cString name ∨ lit ".start" <+: cString name ∨
        lit ".tlb" <+: cString name ∨ lit ".cache" <+: cString name ∨
        lit ".special" <+: cString name) := by
  obtain ⟨h1, h2, h3, h4, h5, h6, h7, h8, h9⟩ := isCString_lits
  have e1 := IsPrefixOrEqual_ne_zero_iff name _ hname h1
  have e2 := IsPrefixOrEqual_ne_zero_iff name _ hname h2
  have e3 := IsPrefixOrEqual_ne_zero_iff name _ hname h3
  have e4 := IsPrefixOrEqual_ne_zero_iff name _ hname h4
  have e5 := IsPrefixOrEqual_ne_zero_iff name _ hname h5
  have e6 := IsPrefixOrEqual_ne_zero_iff name _ hname h6
  have e7 := IsPrefixOrEqual_ne_zero_iff name _ hname h7
  have e8 := IsPrefixOrEqual_ne_zero_iff name _ hname h8
  have e9 := IsPrefixOrEqual_ne_zero_iff name _ hname h9
  simp only [isLoadable, Bool.false_eq_true, if_false, isLoadable.loop]
  rw [← e1, ← e2, ← e3, ← e4, ← e5, ← e6, ← e7, ← e8, ← e9]
  by_cases p1 : IsPrefixOrEqual name (lit ".text") ≠ 0
  · simp [p1]
  by_cases p2 : IsPrefixOrEqual name (lit ".rodata") ≠ 0
  · simp [p1, p2]
  by_cases p3 : IsPrefixOrEqual name (lit ".data") ≠ 0
  · simp [p1, p2, p3]
  by_cases p4 : IsPrefixOrEqual name (lit ".conf") ≠ 0
  · simp [p1, p2, p3, p4]
  by_cases p5 : IsPrefixOrEqual name (lit ".boot") ≠ 0
  · simp [p1, p2, p3, p4, p5]
  by_cases p6 : IsPrefixOrEqual name (lit ".start") ≠ 0
  · simp [p1, p2, p3, p4, p5, p6]
  by_cases p7 : IsPrefixOrEqual name (lit ".tlb") ≠ 0
  · simp [p1, p2, p3, p4, p5, p6, p7]
  by_cases p8 : IsPrefixOrEqual name (lit ".cache") ≠ 0
  · simp [p1, p2, p3, p4, p5, p6, p7, p8]
  by_cases p9 : IsPrefixOrEqual name (lit ".special") ≠ 0
  · simp [p1, p2, p3, p4, p5, p6, p7, p8, p9]
  · simp [p1, p2, p3, p4, p5, p6, p7, p8, p9]

theorem eq_or_proper_prefix_iff (e name : List Nat) :
    (e = name ∨ (e <+: name ∧ e ≠ name)) ↔ e <+: name := by
  constructor
  · rintro (h | h)
    · exact h ▸ List.prefix_refl e
    · exact h.1
  · intro h
    by_cases he : e = name
    · exact Or.inl he
    · exact Or.inr ⟨h, he⟩

theorem lit_values :
    lit ".text" = [46, 116, 101, 120, 116] ∧ lit ".rodata" = [46, 114, 111, 100, 97, 116, 97] ∧
    lit ".data" = [46, 100, 97, 116, 97] ∧ lit ".conf" = [46, 99, 111, 110, 102] ∧
    lit ".boot" = [46, 98, 111, 111, 116] ∧ lit ".start" = [46, 115, 116, 97, 114, 116] ∧
    lit ".tlb" = [46, 116, 108, 98] ∧ lit ".cache" = [46, 99, 97, 99, 104, 101] ∧
    lit ".special" = [46, 115, 112, 101, 99, 105, 97, 108] := by
  decide

/-- No section name begins with both an architecture-specific prefix and one
of the four prefixes that are always compared. -/
theorem arch_prefix_excludes_base (name : List Nat)
    (harch : lit ".boot" <+: name ∨ lit ".start" <+: name ∨ lit ".tlb" <+: name ∨
      lit ".cache" <+: name ∨ lit ".special" <+: name) :
    ¬ (lit ".text" <+: name ∨ lit ".rodata" <+: name ∨ lit ".data" <+: name ∨
        lit ".conf" <+: name) := by
  obtain ⟨t1, t2, t3, t4, t5, t6, t7, t8, t9⟩ := lit_values
  rw [t1, t2, t3, t4]
  rw [t5, t6, t7, t8, t9] at harch
  rcases harch with h | h | h | h | h <;> obtain ⟨t, rfl⟩ := h <;> simp

theorem nine_of_first_four {a b c d e f g h i : Prop} (hp : a ∨ b ∨ c ∨ d) :
    a ∨ b ∨ c ∨ d ∨ e ∨ f ∨ g ∨ h ∨ i := by
  rcases hp with hp | hp | hp | hp
  · exact Or.inl hp
  · exact Or.inr (Or.inl hp)
  · exact Or.inr (Or.inr (Or.inl hp))
  · exact Or.inr (Or.inr (Or.inr (Or.inl hp)))

theorem nine_of_last_five {a b c d e f g h i : Prop} (hp : e ∨ f ∨ g ∨ h ∨ i) :
    a ∨ b ∨ c ∨ d ∨ e ∨ f ∨ g ∨ h ∨ i :=
  Or.inr (Or.inr (Or.inr (Or.inr hp)))

/-! ## The section loop -/

theorem length_of_readElf32 (file : List Nat) (offset size : Nat) (content : List Nat)
    (h : readElf32 file offset 1 size = some content) : content.length = size := by
  unfold readElf32 at h
  simp only [Nat.div_one, Nat.one_mul] at h
  split at h
  · rename_i hle
    have := Option.some.inj h
    rw [← this, List.length_take]
    omega
  · exact absurd h (by simp)

/-- A name that has its terminating `0` inside the buffer is scanned without
a read outside the buffer. -/
theorem IsPrefixOrEqual.scan_inside_of_terminated : ∀ (s p : List Nat), 0 ∈ s →
    IsPrefixOrEqual.outside s p = false
  | [], _, h => by simp at h
  | c :: s, p, h => by
    unfold IsPrefixOrEqual.outside
    by_cases hc : c = 0
    · simp [hc]
    · have hs : 0 ∈ s := by
        rcases List.mem_cons.mp h with h | h
        · exact absurd h.symm hc
        · exact h
      simp only [hc, if_false]
      split
      · rfl
      · split
        · rfl
        · exact IsPrefixOrEqual.scan_inside_of_terminated s p.tail hs

theorem isLoadable.outsideLoop_of_mem_zero (sectname : List Nat) (h : 0 ∈ sectname) :
    ∀ l : List (Option (List Nat)), isLoadable.outsideLoop sectname l = false
  | [] => rfl
  | none :: _ => rfl
  | some sct :: rest => by
    unfold isLoadable.outsideLoop
    rw [IsPrefixOrEqual.scan_inside_of_terminated sectname sct h]
    simp only [Bool.false_eq_true, if_false]
    split
    · rfl
    · exact isLoadable.outsideLoop_of_mem_zero sectname h rest

theorem isLoadable.outside_false_of_terminated (sectname : List Nat) (inclMipsSects : Bool)
    (h : 0 ∈ sectname) : isLoadable.outside sectname inclMipsSects = false :=
  isLoadable.outsideLoop_of_mem_zero sectname h _

/-- The guard of the section loop for a section whose name, when its size is
not `0`, has its terminating `0` inside the string table. -/
theorem outside_guard (sectionnames : List Nat) (inclMipsSects : Bool) (h : Elf32_Shdr)
    (hname : h.size ≠ 0 → 0 ∈ sectionnames.drop h.name) :
    (h.size ≠ 0 && isLoadable.outside (sectionnames.drop h.name) inclMipsSects) = false := by
  by_cases h0 : h.size = 0
  · simp [h0]
  · simp [h0, isLoadable.outside_false_of_terminated _ inclMipsSects (hname h0)]

/-- The section loop from iteration `i` on, when the headers `i`, `i + 1`, ...
read as `hdrs`, the name of every section of non-zero size ends inside the
string table, and the content of every selected section can be read and has
fewer than `2^32 - 15` bytes. -/
theorem sectionLoop_eq (file sectionnames : List Nat) (offsetSectHeader bytesSectHeader : Nat)
    (inclMipsSects : Bool) : ∀ (hdrs : List Elf32_Shdr) (i : Nat),
    (∀ j, j < hdrs.length →
      (readElf32 file ((offsetSectHeader + (i + j) * bytesSectHeader) % 2 ^ 32)
        sizeofElf32_Shdr 1).map asElf32_Shdr = hdrs[j]?) →
    (∀ h ∈ hdrs, h.size ≠ 0 → 0 ∈ sectionnames.drop h.name) →
    (∀ h ∈ hdrs, (h.size ≠ 0 && isLoadable (sectionnames.drop h.name) inclMipsSects) = true →
      readElf32 file h.offset 1 h.size ≠ none ∧ h.size + 15 < 2 ^ 32) →
    ∃ encs : List (List (List Char)),
      List.Forall₂
        (fun h enc => ∃ sectcontent, readElf32 file h.offset 1 h.size = some sectcontent ∧
          encodeSection h.size (AsPhysical h.addr) sectcontent = some enc)
        (hdrs.filter (fun h =>
          h.size ≠ 0 && isLoadable (sectionnames.drop h.name) inclMipsSects)) encs ∧
      sectionLoop file sectionnames offsetSectHeader bytesSectHeader inclMipsSects hdrs.length i
        = some ⟨encs.flatten, none⟩
  | [], i, _, _, _ => ⟨[], List.Forall₂.nil, rfl⟩
  | h :: rest, i, hread, hnames, hcontent => by
    obtain ⟨encs, hall, hloop⟩ := sectionLoop_eq file sectionnames offsetSectHeader
      bytesSectHeader inclMipsSects rest (i + 1)
      (fun j hj => by
        have := hread (j + 1) (by simpa using hj)
        rw [show i + (j + 1) = i + 1 + j by omega] at this
        simpa using this)
      (fun x hx => hnames x (List.mem_cons_of_mem _ hx))
      (fun x hx => hcontent x (List.mem_cons_of_mem _ hx))
    have h0 := hread 0 (by simp)
    simp only [Nat.add_zero, List.getElem?_cons_zero, Option.map_eq_some'] at h0
    obtain ⟨buf, hbuf, hhdr⟩ := h0
    have hout := outside_guard sectionnames inclMipsSects h (hnames h (List.mem_cons_self _ _))
    by_cases hsel : (h.size ≠ 0 && isLoadable (sectionnames.drop h.name) inclMipsSects) = true
    · obtain ⟨hne, hsmall⟩ := hcontent h (List.mem_cons_self _ _) hsel
      obtain ⟨sectcontent, hsc⟩ := Option.ne_none_iff_exists'.mp hne
      have hlen := length_of_readElf32 file h.offset h.size sectcontent hsc
      have hsize : h.size ≠ 0 := by
        simp only [Bool.and_eq_true, decide_eq_true_eq] at hsel
        exact hsel.1
      have henc' := encodeSection_eq (AsPhysical h.addr) sectcontent (by omega) (by omega)
      rw [hlen] at henc'
      obtain ⟨enc, henc⟩ : ∃ enc, encodeSection h.size (AsPhysical h.addr) sectcontent
          = some enc := ⟨_, henc'⟩
      refine ⟨enc :: encs, ?_, ?_⟩
      · simp only [List.filter_cons, hsel, if_true]
        exact List.Forall₂.cons ⟨sectcontent, hsc, henc⟩ hall
      · simp only [List.length_cons, sectionLoop, hbuf, hhdr, hout, Bool.false_eq_true, if_false,
          hsel, if_true, hsc, henc, hloop, Option.map_some', List.flatten_cons]
    · refine ⟨encs, ?_, ?_⟩
      · simp only [List.filter_cons, hsel, if_false]
        exact hall
      · simp only [List.length_cons, sectionLoop, hbuf, hhdr, hout, Bool.false_eq_true, if_false,
          hsel, hloop]

/-! ## Reading `Hex` back -/

theorem hexNumber_foldl (n : Nat) : ∀ (width a : Nat),
    (hexText width n).foldl
        (fun acc c => acc.bind fun a => (hexVal c).map fun v => 16 * a + v) (some a)
      = some (a * 16 ^ width + n % 16 ^ width)
  | 0, a => by simp [hexText, Nat.mod_one]
  | width + 1, a => by
    have hd : n / 16 ^ width % 16 < 16 := Nat.mod_lt _ (by decide)
    rw [hexText, List.foldl_cons, hexVal_hexDigit _ hd]
    simp only [Option.some_bind, Option.map_some']
    rw [hexNumber_foldl n width, Nat.mod_pow_succ]
    congr 1
    ring

theorem hexNumber_hexText (width n : Nat) :
    hexNumber (hexText width n) = some (n % 16 ^ width) := by
  unfold hexNumber
  rw [hexNumber_foldl]
  simp

theorem getElem?_hexText : ∀ (width n i : Nat), i < width →
    (hexText width n)[i]? = some (hexDigit (n / 16 ^ (width - 1 - i) % 16))
  | 0, _, _, h => by omega
  | width + 1, n, 0, _ => by simp [hexText]
  | width + 1, n, i + 1, h => by
    have e : width + 1 - 1 - (i + 1) = width - 1 - i := by omega
    rw [hexText, List.getElem?_cons_succ, getElem?_hexText width n i (by omega), e]

theorem mem_hexText : ∀ (width n : Nat) (c : Char), c ∈ hexText width n →
    c ∈ "0123456789ABCDEF".toList
  | 0, _, c, h => by simp [hexText] at h
  | width + 1, n, c, h => by
    rw [hexText, List.mem_cons] at h
    rcases h with h | h
    · have hd : n / 16 ^ width % 16 < 16 := Nat.mod_lt _ (by decide)
      rw [h]
      generalize n / 16 ^ width % 16 = d at hd
      interval_cases d <;> decide
    · exact mem_hexText width n c h

/-! ## Sections of `2^32 - 15` bytes and more -/

/-- The `for` loop of a pass returns nothing once a read was outside the
buffer. -/
theorem payload_foldl_none (sectcontent : List Nat) (size bytesleft : Nat) :
    ∀ l : List Nat,
      l.foldl
        (fun (acc : Option (List Char × Nat)) i =>
          match acc, sectcontent[payloadIndex i size bytesleft]? with
          | some acc, some data => some (acc.1 ++ Hex data 2, (acc.2 + data) % 256)
          | _, _ => none) none = none
  | [] => rfl
  | _ :: l => by
    rw [List.foldl_cons]
    exact payload_foldl_none sectcontent size bytesleft l

/-- The `for` loop of a pass returns nothing when one of its reads is outside
the buffer. -/
theorem payload_foldl_outside (sectcontent : List Nat) (size bytesleft : Nat) :
    ∀ (l : List Nat) (acc : Option (List Char × Nat)),
      (∃ i ∈ l, sectcontent[payloadIndex i size bytesleft]? = none) →
      l.foldl
        (fun (acc : Option (List Char × Nat)) i =>
          match acc, sectcontent[payloadIndex i size bytesleft]? with
          | some acc, some data => some (acc.1 ++ Hex data 2, (acc.2 + data) % 256)
          | _, _ => none) acc = none
  | [], _, h => by
    obtain ⟨i, hi, _⟩ := h
    simp at hi
  | a :: l, acc, h => by
    rw [List.foldl_cons]
    by_cases ha : sectcontent[payloadIndex a size bytesleft]? = none
    · rw [ha]
      have hstep : (match acc, (none : Option Nat) with
          | some acc, some data => some (acc.1 ++ Hex data 2, (acc.2 + data) % 256)
          | _, _ => none) = none := by
        cases acc <;> rfl
      rw [hstep]
      exact payload_foldl_none sectcontent size bytesleft l
    · apply payload_foldl_outside sectcontent size bytesleft l
      obtain ⟨i, hi, hnone⟩ := h
      rcases List.mem_cons.mp hi with hi | hi
      · rw [hi] at hnone
        exact absurd hnone ha
      · exact ⟨i, hi, hnone⟩

/-- For a section of `size` bytes, `2^32 - 15 <= size < 2^32`, the 32-bit sum
`i + sectionHeader.size` wraps at `i = 2^32 - size`, and the index of the first
pass is `2^64 - size`, outside the buffer. -/
theorem payloadIndex_wraps (size : Nat) (h1 : 2 ^ 32 ≤ size + 15) (h2 : size < 2 ^ 32) :
    2 ^ 32 - size < 16 ∧ payloadIndex (2 ^ 32 - size) size size = 2 ^ 64 - size ∧
      size ≤ 2 ^ 64 - size := by
  unfold payloadIndex
  omega

/-- The first pass of the record loop over a section of `size` bytes,
`2^32 - 15 <= size < 2^32`, reads outside the buffer. -/
theorem again.body_outside (size paddr : Nat) (sectcontent : List Nat)
    (hlen : sectcontent.length = size) (h1 : 2 ^ 32 ≤ size + 15) (h2 : size < 2 ^ 32) :
    again.body size paddr sectcontent size = none := by
  obtain ⟨hi, hidx, hle⟩ := payloadIndex_wraps size h1 h2
  have hmin : min size 16 = 16 := Nat.min_eq_right (by omega)
  unfold again.body
  simp only [hmin]
  rw [payload_foldl_outside sectcontent size size (List.range 16) _
    ⟨2 ^ 32 - size, List.mem_range.mpr hi, by
      rw [hidx]
      exact List.getElem?_eq_none (by omega)⟩]

/-- The record loop over such a section returns no record list, whatever the
number of passes allowed. -/
theorem again_outside (size paddr : Nat) (sectcontent : List Nat)
    (hlen : sectcontent.length = size) (h1 : 2 ^ 32 ≤ size + 15) (h2 : size < 2 ^ 32)
    (fuel : Nat) : again size paddr sectcontent fuel size = none := by
  cases fuel with
  | zero => rfl
  | succ fuel => rw [again, again.body_outside size paddr sectcontent hlen h1 h2]

/-! ## The entry point -/

theorem sectionLoop_status (file sectionnames : List Nat) (offsetSectHeader bytesSectHeader : Nat)
    (inclMipsSects : Bool) : ∀ (todo i : Nat) (run : Run),
    sectionLoop file sectionnames offsetSectHeader bytesSectHeader inclMipsSects todo i = some run →
    run.status = none ∨ run.status = some 9
  | 0, i, run, h => by
    simp only [sectionLoop, Option.some.injEq] at h
    exact Or.inl (h ▸ rfl)
  | todo + 1, i, run, h => by
    simp only [sectionLoop] at h
    split at h
    · simp only [Option.some.injEq] at h
      exact Or.inr (h ▸ rfl)
    · split at h
      · exact absurd h (by simp)
      · split at h
        · split at h
          · simp only [Option.some.injEq] at h
            exact Or.inr (h ▸ rfl)
          · split at h
            · exact absurd h (by simp)
            · cases hr : sectionLoop file sectionnames offsetSectHeader bytesSectHeader
                  inclMipsSects todo (i + 1) with
              | none => rw [hr] at h; exact absurd h (by simp)
              | some run' =>
                rw [hr] at h
                simp only [Option.map_some', Option.some.injEq] at h
                have := sectionLoop_status file sectionnames offsetSectHeader bytesSectHeader
                  inclMipsSects todo (i + 1) run' hr
                rw [← h]
                exact this
        · exact sectionLoop_status file sectionnames offsetSectHeader bytesSectHeader
            inclMipsSects todo (i + 1) run h

theorem pasted_eq (boot : Option (List Char)) :
    (match boot with
      | some content => content
      | none => []) = boot.getD [] := by
  cases boot <;> rfl

theorem main_of_wrong_type (boot : Option (List Char)) (inclMipsSects : Bool)
    (file buf : List Nat) (hread : readElf32 file 0 sizeofElf32_Ehdr 1 = some buf)
    (htype : (asElf32_Ehdr buf).type ≠ 2) :
    main boot inclMipsSects file = some ⟨boot.getD [], 10⟩ := by
  simp only [main, hread, pasted_eq, ET_EXEC, ne_eq, htype, not_false_eq_true, if_true]

theorem main_of_wrong_entry_size (boot : Option (List Char)) (inclMipsSects : Bool)
    (file buf : List Nat) (hread : readElf32 file 0 sizeofElf32_Ehdr 1 = some buf)
    (htype : (asElf32_Ehdr buf).type = 2) (hsize : (asElf32_Ehdr buf).shentsize ≠ 40) :
    main boot inclMipsSects file = some ⟨boot.getD [], 11⟩ := by
  simp only [main, hread, pasted_eq, ET_EXEC, ne_eq, htype, not_true_eq_false, if_false,
    sizeofElf32_Shdr, hsize, not_false_eq_true, if_true]

/-- Past the two header checks `main` ends with status 0 or 9. -/
theorem main_of_accepted (boot : Option (List Char)) (inclMipsSects : Bool)
    (file buf : List Nat) (hread : readElf32 file 0 sizeofElf32_Ehdr 1 = some buf)
    (htype : (asElf32_Ehdr buf).type = 2) (hsize : (asElf32_Ehdr buf).shentsize = 40)
    (out : Outcome) (hmain : main boot inclMipsSects file = some out) :
    out.status = 0 ∨ out.status = 9 := by
  simp only [main, hread, pasted_eq, ET_EXEC, ne_eq, htype, not_true_eq_false, if_false,
    sizeofElf32_Shdr, hsize] at hmain
  split at hmain
  · exact Or.inr (Option.some.inj hmain ▸ rfl)
  · split at hmain
    · exact Or.inr (Option.some.inj hmain ▸ rfl)
    · split at hmain
      · exact absurd hmain (by simp)
      · rename_i run hrun
        have hst := sectionLoop_status _ _ _ _ _ _ _ run hrun
        split at hmain
        · rename_i status hstatus
          rw [hstatus] at hst
          rcases hst with hst | hst
          · exact absurd hst (by simp)
          · have : status = 9 := Option.some.inj hst
            exact Or.inr (Option.some.inj hmain ▸ this)
        · exact Or.inl (Option.some.inj hmain ▸ rfl)

/-- What `main` returns once the headers and the string table are read and
the section loop has returned. -/
theorem main_of_loop (boot : Option (List Char)) (inclMipsSects : Bool)
    (file buf nbuf sectionnames : List Nat) (run : Run)
    (htables : ReadsTables file buf nbuf sectionnames)
    (hloop : sectionLoop file sectionnames (asElf32_Ehdr buf).shoff 40 inclMipsSects
      (asElf32_Ehdr buf).shnum 0 = some run) :
    main boot inclMipsSects file
      = some (match run.status with
          | some status => ⟨boot.getD [] ++ run.records.flatten, status⟩
          | none => ⟨boot.getD [] ++ run.records.flatten
              ++ (if boot.isSome then ":00000001FF\x0d\x0a".toList else []), 0⟩) := by
  obtain ⟨hbuf, htype, hsize, hnbuf, hnames⟩ := htables
  simp only [sizeofElf32_Shdr] at hnbuf
  simp only [main, hbuf, pasted_eq, ET_EXEC, ne_eq, htype, not_true_eq_false, if_false,
    sizeofElf32_Shdr, hsize, hnbuf, hnames, hloop]
  cases run.status <;> rfl

/-- The records of the encodings of sections of non-zero size below
`2^32 - 15` are well-formed Data or Extended-Linear-Address records. -/
theorem record_types_of_encodings (file : List Nat) :
    ∀ (l : List Elf32_Shdr) (encs : List (List (List Char))),
    (∀ h ∈ l, h.size ≠ 0 ∧ h.size + 15 < 2 ^ 32) →
    List.Forall₂
      (fun h enc => ∃ sectcontent, readElf32 file h.offset 1 h.size = some sectcontent ∧
        encodeSection h.size (AsPhysical h.addr) sectcontent = some enc) l encs →
    ∀ line ∈ encs.flatten, ∃ r, decodeRecord line = some r ∧ (r.rtype = 0 ∨ r.rtype = 4)
  | _, _, _, List.Forall₂.nil => by
    intro line hl
    simp at hl
  | h :: l, enc :: encs, hl, List.Forall₂.cons hhead htail => by
    intro line hline
    rw [List.flatten_cons] at hline
    rcases List.mem_append.mp hline with hline | hline
    · obtain ⟨sectcontent, hsc, henc⟩ := hhead
      obtain ⟨h0, hsmall⟩ := hl h (List.mem_cons_self _ _)
      have hlen := length_of_readElf32 file h.offset h.size sectcontent hsc
      have hclosed := encodeSection_eq (AsPhysical h.addr) sectcontent (by omega) (by omega)
      rw [hlen, henc] at hclosed
      rw [Option.some.inj hclosed] at hline
      obtain ⟨k, _, hk⟩ := List.mem_flatMap.mp hline
      obtain ⟨_, r, _, hr, ht, _⟩ := recordsAt_checksum _ sectcontent k line hk
      exact ⟨r, hr, ht⟩
    · exact record_types_of_encodings file l encs
        (fun x hx => hl x (List.mem_cons_of_mem _ hx)) htail line hline

/-! ## Short reads -/

/-- The addresses an Intel HEX reader assigns to the Data records of a section
from the `k`-th on: the upper half is that of the address at the last multiple
of 32768 of the in-section offset, the lower half that of the address of the
record. -/
theorem dataAddresses_blocks (paddr : Nat) (sectcontent : List Nat) :
    ∀ (cnt k upper : Nat),
    ((16 * k) % 32768 ≠ 0 → upper = (paddr + 32768 * (16 * k / 32768)) % 2 ^ 32 / 65536) →
    dataAddresses upper ((List.range' k cnt).flatMap (decodedAt paddr sectcontent))
      = (List.range' k cnt).map (fun j =>
          65536 * ((paddr + 32768 * (16 * j / 32768)) % 2 ^ 32 / 65536) + (paddr + 16 * j) % 65536)
  | 0, _, _, _ => rfl
  | cnt + 1, k, upper, hup => by
    rw [List.range'_succ, List.flatMap_cons, List.map_cons]
    by_cases hk : (16 * k) % 32768 = 0
    · have e1 : 256 * ((paddr + 16 * k) % 2 ^ 32 / 65536 / 256)
          + (paddr + 16 * k) % 2 ^ 32 / 65536 % 256 = (paddr + 16 * k) % 2 ^ 32 / 65536 := by
        omega
      have e2 : 32768 * (16 * k / 32768) = 16 * k := by omega
      have ih := dataAddresses_blocks paddr sectcontent cnt (k + 1)
        ((paddr + 16 * k) % 2 ^ 32 / 65536) (by
          intro hk1
          have e3 : 32768 * (16 * (k + 1) / 32768) = 16 * k := by omega
          rw [e3])
      simp only [decodedAt, hk, if_true, List.cons_append, List.nil_append, dataAddresses,
        List.getD_cons_zero, List.getD_cons_succ, e1, e2, ih]
      simp
    · have hu := hup hk
      have ih := dataAddresses_blocks paddr sectcontent cnt (k + 1) upper (by
          intro hk1
          have e3 : 32768 * (16 * (k + 1) / 32768) = 32768 * (16 * k / 32768) := by omega
          rw [e3, hu])
      simp only [decodedAt, hk, if_false, List.nil_append, List.cons_append, dataAddresses, ih]
      simp [hu]

theorem crossingContent_length : crossingContent.length = 32784 := by
  unfold crossingContent
  rw [List.length_map, List.length_range]

theorem crossingContent_ne_nil : crossingContent ≠ [] := by
  intro h
  have := crossingContent_length
  rw [h] at this
  exact absurd this (by decide)

theorem crossingContent_small : crossingContent.length + 15 < 2 ^ 32 := by
  rw [crossingContent_length]
  norm_num

/-! ## Claims -/

/-- C1. For every physical base address and every non-empty section content
of fewer than `2^32 - 15` bytes, the per-section encoder stays inside the
buffer and returns, and every line it writes is a well-formed Data (type 0) or
Extended-Linear-Address (type 4) record whose bytes (the hexadecimal pairs
after the leading `:` and before CR LF: byte count, two address bytes, record
type, payload, checksum) sum to `0` modulo 256. -/
theorem record_bytes_sum_zero (paddr : Nat) (sectcontent : List Nat) (h : sectcontent ≠ [])
    (hsize : sectcontent.length + 15 < 2 ^ 32) :
    ∃ recs, encodeSection sectcontent.length paddr sectcontent = some recs ∧
      ∀ line ∈ recs, ∃ bytes r, recordBytes line = some bytes ∧ decodeRecord line = some r
        ∧ (r.rtype = 0 ∨ r.rtype = 4) ∧ bytes.sum % 256 = 0 := by
  refine ⟨_, encodeSection_eq paddr sectcontent (List.length_pos.mpr h) hsize, ?_⟩
  intro line hline
  obtain ⟨k, _, hk⟩ := List.mem_flatMap.mp hline
  exact recordsAt_checksum paddr sectcontent k line hk

theorem record_bytes_sum_zero_witness :
    (List.range 17 ≠ [] ∧ (List.range 17).length + 15 < 2 ^ 32) ∧
    ∃ recs, encodeSection (List.range 17).length 0x1D00FFF8 (List.range 17) = some recs ∧
      ∀ line ∈ recs, ∃ bytes r, recordBytes line = some bytes ∧ decodeRecord line = some r
        ∧ (r.rtype = 0 ∨ r.rtype = 4) ∧ bytes.sum % 256 = 0 :=
  ⟨⟨by decide, by norm_num⟩,
    record_bytes_sum_zero 0x1D00FFF8 (List.range 17) (by decide) (by norm_num)⟩

/-- C6. Extended-Linear-Address record content: for every 32-bit address `a`,
`emitIntelExtendedLinAddr a` writes exactly `:02000004`, the 4 hexadecimal
digits of bits 31-16 of `a` (most significant first), the 2-digit checksum and
CR LF, 17 characters in all, a line that decodes as a type-4 record with the
two payload bytes bits 31-24 and bits 23-16 of `a`. In the output of a
section of fewer than `2^32 - 15` bytes at physical base `paddr`, the
Extended-Linear-Address record written at in-section offset `o = 16 * j` (just
before the Data record of that offset) is this line for bits 31-16 of
`(paddr + o) mod 2^32`. -/
theorem extended_linear_address_record (a : Nat) (ha : a < 2 ^ 32) (paddr : Nat)
    (sectcontent : List Nat) (h : sectcontent ≠ [])
    (hsize : sectcontent.length + 15 < 2 ^ 32) :
    emitIntelExtendedLinAddr a
      = ":02000004".toList ++ hexText 4 (a / 65536)
          ++ hexText 2 (checksumOf [2, 0, 0, 4, a / 65536 / 256, a / 65536 % 256])
          ++ "\x0d\x0a".toList ∧
    (emitIntelExtendedLinAddr a).length = 17 ∧
    decodeRecord (emitIntelExtendedLinAddr a)
      = some ⟨2, 0, 4, [a / 2 ^ 24, a / 2 ^ 16 % 256],
          checksumOf [2, 0, 0, 4, a / 2 ^ 24, a / 2 ^ 16 % 256]⟩ ∧
    ∃ recs : List (List Char),
      encodeSection sectcontent.length paddr sectcontent = some recs ∧
      recs = (List.range ((sectcontent.length + 15) / 16)).flatMap (fun j =>
        (if (16 * j) % 32768 = 0 then
          [":02000004".toList ++ hexText 4 ((paddr + 16 * j) % 2 ^ 32 / 65536)
            ++ hexText 2 (checksumOf [2, 0, 0, 4, (paddr + 16 * j) % 2 ^ 32 / 65536 / 256,
                (paddr + 16 * j) % 2 ^ 32 / 65536 % 256])
            ++ "\x0d\x0a".toList]
         else [])
        ++ [dataRecordText (min (sectcontent.length - 16 * j) 16) ((paddr + 16 * j) % 65536)
              ((sectcontent.drop (16 * j)).take 16)]) := by
  have hmod : a / 65536 % 65536 = a / 65536 := by omega
  have htext := emitIntelExtendedLinAddr_eq a
  rw [hmod] at htext
  refine ⟨htext, ?_, ?_, _,
    encodeSection_eq paddr sectcontent (List.length_pos.mpr h) hsize, rfl⟩
  · have hhead : ":02000004".toList.length = 9 := rfl
    have hcrlf : "\x0d\x0a".toList.length = 2 := rfl
    rw [htext, elaRecordText]
    simp only [List.length_append, length_hexText, hhead, hcrlf]
  · have e1 : a / 65536 / 256 % 256 = a / 2 ^ 24 := by omega
    have e2 : a / 65536 / 256 = a / 2 ^ 24 := by omega
    have e3 : a / 65536 % 256 = a / 2 ^ 16 % 256 := by omega
    rw [htext, decodeRecord_elaRecordText, e1, e2, e3]

theorem extended_linear_address_record_witness :
    (0x9D000000 < 2 ^ 32 ∧ crossingContent ≠ [] ∧ crossingContent.length + 15 < 2 ^ 32) ∧
    emitIntelExtendedLinAddr 0x9D000000
      = ":02000004".toList ++ hexText 4 (0x9D000000 / 65536)
          ++ hexText 2 (checksumOf [2, 0, 0, 4, 0x9D000000 / 65536 / 256, 0x9D000000 / 65536 % 256])
          ++ "\x0d\x0a".toList ∧
    (emitIntelExtendedLinAddr 0x9D000000).length = 17 ∧
    decodeRecord (emitIntelExtendedLinAddr 0x9D000000)
      = some ⟨2, 0, 4, [0x9D000000 / 2 ^ 24, 0x9D000000 / 2 ^ 16 % 256],
          checksumOf [2, 0, 0, 4, 0x9D000000 / 2 ^ 24, 0x9D000000 / 2 ^ 16 % 256]⟩ ∧
    ∃ recs : List (List Char),
      encodeSection crossingContent.length 0x1D00FFF8 crossingContent = some recs ∧
      recs = (List.range ((crossingContent.length + 15) / 16)).flatMap (fun j =>
        (if (16 * j) % 32768 = 0 then
          [":02000004".toList ++ hexText 4 ((0x1D00FFF8 + 16 * j) % 2 ^ 32 / 65536)
            ++ hexText 2 (checksumOf [2, 0, 0, 4, (0x1D00FFF8 + 16 * j) % 2 ^ 32 / 65536 / 256,
                (0x1D00FFF8 + 16 * j) % 2 ^ 32 / 65536 % 256])
            ++ "\x0d\x0a".toList]
         else [])
        ++ [dataRecordText (min (crossingContent.length - 16 * j) 16)
              ((0x1D00FFF8 + 16 * j) % 65536) ((crossingContent.drop (16 * j)).take 16)]) :=
  ⟨⟨by decide, crossingContent_ne_nil, crossingContent_small⟩,
    extended_linear_address_record 0x9D000000 (by decide) 0x1D00FFF8 crossingContent
      crossingContent_ne_nil crossingContent_small⟩

/-- C7. For every section name (the C string under a pointer into a buffer
of bytes) and every flag value, `isLoadable name flag` is true exactly when
some allow-list entry equals the name or is a proper prefix of it, byte for
byte; the allow-list is `.text`, `.rodata`, `.data`, `.conf` and, only when
the flag is false, also `.boot`, `.start`, `.tlb`, `.cache`, `.special`. With
the flag false `.text`, `.text.startup` and `.textual` are loadable, `.bss`
and `.TEXT` are not. -/
theorem isLoadable_iff_allow_list (name : List Nat) (hname : isBytes name)
    (excludeArchSpecific : Bool) :
    (isLoadable name excludeArchSpecific = true ↔
      ∃ e ∈ allowList excludeArchSpecific,
        e = cString name ∨ (e <+: cString name ∧ e ≠ cString name)) ∧
    isLoadable (lit ".text") false = true ∧
    isLoadable (lit ".text.startup") false = true ∧
    isLoadable (lit ".textual") false = true ∧
    isLoadable (lit ".bss") false = false ∧
    isLoadable (lit ".TEXT") false = false := by
  refine ⟨?_, by decide, by decide, by decide, by decide, by decide⟩
  simp only [eq_or_proper_prefix_iff]
  cases excludeArchSpecific with
  | true =>
    rw [isLoadable_true_iff name hname]
    simp [allowList]
  | false =>
    rw [isLoadable_false_iff name hname]
    simp [allowList]

theorem isLoadable_iff_allow_list_witness :
    isBytes (lit ".text.startup" ++ [0] ++ lit ".bss") ∧
    ((isLoadable (lit ".text.startup" ++ [0] ++ lit ".bss") false = true ↔
      ∃ e ∈ allowList false,
        e = cString (lit ".text.startup" ++ [0] ++ lit ".bss") ∨
        (e <+: cString (lit ".text.startup" ++ [0] ++ lit ".bss") ∧
          e ≠ cString (lit ".text.startup" ++ [0] ++ lit ".bss"))) ∧
    isLoadable (lit ".text") false = true ∧
    isLoadable (lit ".text.startup") false = true ∧
    isLoadable (lit ".textual") false = true ∧
    isLoadable (lit ".bss") false = false ∧
    isLoadable (lit ".TEXT") false = false) :=
  ⟨by unfold isBytes; decide,
    isLoadable_iff_allow_list (lit ".text.startup" ++ [0] ++ lit ".bss")
      (by unfold isBytes; decide) false⟩

/-- C8. Flag semantics: a section name (the C string under a pointer into a
buffer of bytes) that begins with `.boot`, `.start`, `.tlb`, `.cache` or
`.special` is not loadable with the flag set and loadable with the flag clear;
a name that begins with `.text`, `.rodata`, `.data` or `.conf` is loadable for
both flag values; and whatever is loadable with the flag set is loadable with
the flag clear. In particular `.boot` is loadable with the flag clear only. -/
theorem exclude_flag_semantics (name : List Nat) (hname : isBytes name) :
    ((lit ".boot" <+: cString name ∨ lit ".start" <+: cString name ∨
        lit ".tlb" <+: cString name ∨ lit ".cache" <+: cString name ∨
        lit ".special" <+: cString name) →
      isLoadable name true = false ∧ isLoadable name false = true) ∧
    ((lit ".text" <+: cString name ∨ lit ".rodata" <+: cString name ∨
        lit ".data" <+: cString name ∨ lit ".conf" <+: cString name) →
      isLoadable name true = true ∧ isLoadable name false = true) ∧
    (isLoadable name true = true → isLoadable name false = true) ∧
    isLoadable (lit ".boot") true = false ∧ isLoadable (lit ".boot") false = true := by
  have ht := isLoadable_true_iff name hname
  have hf := isLoadable_false_iff name hname
  refine ⟨?_, ?_, ?_, by decide, by decide⟩
  · intro harch
    constructor
    · have hno := arch_prefix_excludes_base (cString name) harch
      cases hl : isLoadable name true with
      | false => rfl
      | true => exact absurd (ht.mp hl) hno
    · exact hf.mpr (nine_of_last_five harch)
  · intro hbase
    exact ⟨ht.mpr hbase, hf.mpr (nine_of_first_four hbase)⟩
  · intro hl
    exact hf.mpr (nine_of_first_four (ht.mp hl))

theorem exclude_flag_semantics_witness :
    isBytes (lit ".boot") ∧
    (((lit ".boot" <+: cString (lit ".boot") ∨ lit ".start" <+: cString (lit ".boot") ∨
        lit ".tlb" <+: cString (lit ".boot") ∨ lit ".cache" <+: cString (lit ".boot") ∨
        lit ".special" <+: cString (lit ".boot")) →
      isLoadable (lit ".boot") true = false ∧ isLoadable (lit ".boot") false = true) ∧
    ((lit ".text" <+: cString (lit ".boot") ∨ lit ".rodata" <+: cString (lit ".boot") ∨
        lit ".data" <+: cString (lit ".boot") ∨ lit ".conf" <+: cString (lit ".boot")) →
      isLoadable (lit ".boot") true = true ∧ isLoadable (lit ".boot") false = true) ∧
    (isLoadable (lit ".boot") true = true → isLoadable (lit ".boot") false = true) ∧
    isLoadable (lit ".boot") true = false ∧ isLoadable (lit ".boot") false = true) :=
  ⟨by unfold isBytes; decide,
    exclude_flag_semantics (lit ".boot") (by unfold isBytes; decide)⟩

/-- C9. For every virtual address `v`, `AsPhysical v` is `v` modulo `2^29`:
bits 0 to 28 are those of `v` and every bit from 29 up is clear. The result is
below `2^29`, applying the function twice changes nothing, and
`AsPhysical 0xBFC00000 = 0x1FC00000`. -/
theorem AsPhysical_clears_top_bits (v : Nat) :
    AsPhysical v = v &&& 0x1FFFFFFF ∧
    AsPhysical v = v % 2 ^ 29 ∧
    (∀ i, (AsPhysical v).testBit i = (decide (i < 29) && v.testBit i)) ∧
    AsPhysical v < 2 ^ 29 ∧
    AsPhysical (AsPhysical v) = AsPhysical v ∧
    AsPhysical 0xBFC00000 = 0x1FC00000 := by
  have hmask : (0x1FFFFFFF : Nat) = 2 ^ 29 - 1 := by norm_num
  have hmod : ∀ x : Nat, AsPhysical x = x % 2 ^ 29 := by
    intro x
    unfold AsPhysical
    rw [hmask]
    exact Nat.and_pow_two_sub_one_eq_mod x 29
  refine ⟨rfl, hmod v, ?_, ?_, ?_, ?_⟩
  · intro i
    rw [hmod, Nat.testBit_mod_two_pow]
  · rw [hmod]
    exact Nat.mod_lt _ (Nat.two_pow_pos 29)
  · rw [hmod, hmod, Nat.mod_mod]
  · rw [hmod]
    norm_num

/-- C10. For every section-header table `hdrs` (read entry by entry from the
file by the loop) in which the name of every section of non-zero size ends
inside the string table, and provided the content of each selected section can
be read and has fewer than `2^32 - 15` bytes, the section loop runs to its end
without exiting, and the records it writes are the concatenation, in table
order, of the per-section encodings at physical base `AsPhysical addr` of
exactly those sections whose size is non-zero and whose name is loadable. A
section of size 0 is skipped whatever its name (nothing is asked about its
name or content, which may lie anywhere), and so is a section whose name is not
loadable: a table of such sections only yields no record. -/
theorem section_loop_records (file sectionnames : List Nat)
    (offsetSectHeader bytesSectHeader : Nat) (inclMipsSects : Bool) (hdrs : List Elf32_Shdr)
    (hread : ∀ i, i < hdrs.length →
      (readElf32 file ((offsetSectHeader + i * bytesSectHeader) % 2 ^ 32)
        sizeofElf32_Shdr 1).map asElf32_Shdr = hdrs[i]?)
    (hnames : ∀ h ∈ hdrs, h.size ≠ 0 → 0 ∈ sectionnames.drop h.name)
    (hcontent : ∀ h ∈ hdrs,
      (h.size ≠ 0 && isLoadable (sectionnames.drop h.name) inclMipsSects) = true →
      readElf32 file h.offset 1 h.size ≠ none)
    (hsmall : ∀ h ∈ hdrs,
      (h.size ≠ 0 && isLoadable (sectionnames.drop h.name) inclMipsSects) = true →
      h.size + 15 < 2 ^ 32) :
    (∃ encs : List (List (List Char)),
      List.Forall₂
        (fun h enc => ∃ sectcontent, readElf32 file h.offset 1 h.size = some sectcontent ∧
          encodeSection h.size (AsPhysical h.addr) sectcontent = some enc)
        (hdrs.filter (fun h =>
          h.size ≠ 0 && isLoadable (sectionnames.drop h.name) inclMipsSects)) encs ∧
      sectionLoop file sectionnames offsetSectHeader bytesSectHeader inclMipsSects hdrs.length 0
        = some ⟨encs.flatten, none⟩) ∧
    ((∀ h ∈ hdrs, h.size = 0 ∨ isLoadable (sectionnames.drop h.name) inclMipsSects = false) →
      sectionLoop file sectionnames offsetSectHeader bytesSectHeader inclMipsSects hdrs.length 0
        = some ⟨[], none⟩) := by
  have hmain := sectionLoop_eq file sectionnames offsetSectHeader bytesSectHeader inclMipsSects
    hdrs 0 (fun j hj => by simpa using hread j hj) hnames
    (fun h hh hs => ⟨hcontent h hh hs, hsmall h hh hs⟩)
  refine ⟨hmain, ?_⟩
  intro hnone
  obtain ⟨encs, hall, hloop⟩ := hmain
  have hfilter : hdrs.filter (fun h =>
      h.size ≠ 0 && isLoadable (sectionnames.drop h.name) inclMipsSects) = [] := by
    rw [List.filter_eq_nil_iff]
    intro h hh
    rcases hnone h hh with h0 | hl
    · simp [h0]
    · simp [hl]
  rw [hfilter] at hall
  cases hall
  exact hloop

set_option maxRecDepth 100000 in
theorem section_loop_records_witness :
    ((∀ i, i < sampleHeaders.length →
      (readElf32 sampleFile ((0 + i * 40) % 2 ^ 32) sizeofElf32_Shdr 1).map asElf32_Shdr
        = sampleHeaders[i]?) ∧
     (∀ h ∈ sampleHeaders, h.size ≠ 0 → 0 ∈ sampleNames.drop h.name) ∧
     (∀ h ∈ sampleHeaders,
      (h.size ≠ 0 && isLoadable (sampleNames.drop h.name) false) = true →
      readElf32 sampleFile h.offset 1 h.size ≠ none) ∧
     (∀ h ∈ sampleHeaders,
      (h.size ≠ 0 && isLoadable (sampleNames.drop h.name) false) = true →
      h.size + 15 < 2 ^ 32)) ∧
    ((∃ encs : List (List (List Char)),
      List.Forall₂
        (fun h enc => ∃ sectcontent, readElf32 sampleFile h.offset 1 h.size = some sectcontent ∧
          encodeSection h.size (AsPhysical h.addr) sectcontent = some enc)
        (sampleHeaders.filter (fun h =>
          h.size ≠ 0 && isLoadable (sampleNames.drop h.name) false)) encs ∧
      sectionLoop sampleFile sampleNames 0 40 false sampleHeaders.length 0
        = some ⟨encs.flatten, none⟩) ∧
    ((∀ h ∈ sampleHeaders, h.size = 0 ∨ isLoadable (sampleNames.drop h.name) false = false) →
      sectionLoop sampleFile sampleNames 0 40 false sampleHeaders.length 0
        = some ⟨[], none⟩)) :=
  ⟨⟨by decide, by decide, by decide, by decide⟩,
    section_loop_records sampleFile sampleNames 0 40 false sampleHeaders
      (by decide) (by decide) (by decide) (by decide)⟩

/-- C11. Bootloader framing: for every ELF file that passes the header
checks, whose string table and section-header table `hdrs` can be read, in
which the name of every section of non-zero size ends inside the string table
and the content of every selected section can be read and has fewer than
`2^32 - 15` bytes, `main` returns with status 0, and its output is the content
of the bootloader file as it is, then the records of the section loop, each a
Data or Extended-Linear-Address record, then the End-Of-File line
`:00000001FF` CR LF (a type-1 record, written once, after every other record)
when a bootloader file was given; without a bootloader file the output is the
records of the section loop alone, with no End-Of-File line. -/
theorem bootloader_framing (boot : Option (List Char)) (inclMipsSects : Bool)
    (file buf nbuf sectionnames : List Nat) (hdrs : List Elf32_Shdr)
    (htables : ReadsTables file buf nbuf sectionnames)
    (hnum : hdrs.length = (asElf32_Ehdr buf).shnum)
    (hread : ReadsHeaders file (asElf32_Ehdr buf).shoff hdrs)
    (hnames : ∀ h ∈ hdrs, h.size ≠ 0 → 0 ∈ sectionnames.drop h.name)
    (hcontent : ∀ h ∈ hdrs,
      (h.size ≠ 0 && isLoadable (sectionnames.drop h.name) inclMipsSects) = true →
      readElf32 file h.offset 1 h.size ≠ none)
    (hsmall : ∀ h ∈ hdrs,
      (h.size ≠ 0 && isLoadable (sectionnames.drop h.name) inclMipsSects) = true →
      h.size + 15 < 2 ^ 32) :
    ∃ records : List (List Char),
      sectionLoop file sectionnames (asElf32_Ehdr buf).shoff 40 inclMipsSects
        (asElf32_Ehdr buf).shnum 0 = some ⟨records, none⟩ ∧
      (∀ line ∈ records, ∃ r, decodeRecord line = some r ∧ (r.rtype = 0 ∨ r.rtype = 4)) ∧
      decodeRecord ":00000001FF\x0d\x0a".toList = some ⟨0, 0, 1, [], 255⟩ ∧
      (∀ content, boot = some content →
        main boot inclMipsSects file
          = some ⟨content ++ records.flatten ++ ":00000001FF\x0d\x0a".toList, 0⟩) ∧
      (boot = none → main boot inclMipsSects file = some ⟨records.flatten, 0⟩) := by
  obtain ⟨encs, hall, hloop⟩ := sectionLoop_eq file sectionnames (asElf32_Ehdr buf).shoff 40
    inclMipsSects hdrs 0 (fun j hj => by simpa using hread j hj) hnames
    (fun h hh hs => ⟨hcontent h hh hs, hsmall h hh hs⟩)
  rw [hnum] at hloop
  have hmain := main_of_loop boot inclMipsSects file buf nbuf sectionnames _ htables hloop
  refine ⟨encs.flatten, hloop, ?_, by decide, ?_, ?_⟩
  · exact record_types_of_encodings file _ encs
      (fun h hh => by
        obtain ⟨hmem, hs⟩ := List.mem_filter.mp hh
        refine ⟨?_, hsmall h hmem hs⟩
        simp only [Bool.and_eq_true, decide_eq_true_eq] at hs
        exact hs.1) hall
  · intro content hboot
    rw [hmain, hboot]
    rfl
  · intro hboot
    rw [hmain, hboot]
    simp

set_option maxRecDepth 100000 in
theorem bootloader_framing_witness :
    (ReadsTables (sampleElf 2 40 252) (sampleEhdr 2 40)
        (bytesOfShdr ⟨18, 3, 0, 0, 256, 28, 0, 0, 1, 0⟩) sampleElfNames ∧
      (sampleElfHeaders 252).length = (asElf32_Ehdr (sampleEhdr 2 40)).shnum ∧
      ReadsHeaders (sampleElf 2 40 252) (asElf32_Ehdr (sampleEhdr 2 40)).shoff
        (sampleElfHeaders 252) ∧
      (∀ h ∈ sampleElfHeaders 252, h.size ≠ 0 → 0 ∈ sampleElfNames.drop h.name) ∧
      (∀ h ∈ sampleElfHeaders 252,
        (h.size ≠ 0 && isLoadable (sampleElfNames.drop h.name) false) = true →
        readElf32 (sampleElf 2 40 252) h.offset 1 h.size ≠ none) ∧
      (∀ h ∈ sampleElfHeaders 252,
        (h.size ≠ 0 && isLoadable (sampleElfNames.drop h.name) false) = true →
        h.size + 15 < 2 ^ 32)) ∧
    ∃ records : List (List Char),
      sectionLoop (sampleElf 2 40 252) sampleElfNames (asElf32_Ehdr (sampleEhdr 2 40)).shoff 40
        false (asElf32_Ehdr (sampleEhdr 2 40)).shnum 0 = some ⟨records, none⟩ ∧
      (∀ line ∈ records, ∃ r, decodeRecord line = some r ∧ (r.rtype = 0 ∨ r.rtype = 4)) ∧
      decodeRecord ":00000001FF\x0d\x0a".toList = some ⟨0, 0, 1, [], 255⟩ ∧
      (∀ content, some ":020000040000FA\x0d\x0a".toList = some content →
        main (some ":020000040000FA\x0d\x0a".toList) false (sampleElf 2 40 252)
          = some ⟨content ++ records.flatten ++ ":00000001FF\x0d\x0a".toList, 0⟩) ∧
      (some ":020000040000FA\x0d\x0a".toList = none →
        main (some ":020000040000FA\x0d\x0a".toList) false (sampleElf 2 40 252)
          = some ⟨records.flatten, 0⟩) :=
  ⟨⟨by unfold ReadsTables; decide, by decide, by unfold ReadsHeaders; decide, by decide,
      by decide, by decide⟩,
    bootloader_framing (some ":020000040000FA\x0d\x0a".toList) false (sampleElf 2 40 252)
      (sampleEhdr 2 40) (bytesOfShdr ⟨18, 3, 0, 0, 256, 28, 0, 0, 1, 0⟩) sampleElfNames
      (sampleElfHeaders 252)
      (by unfold ReadsTables; decide) (by decide) (by unfold ReadsHeaders; decide) (by decide)
      (by decide) (by decide)⟩

/-- C12. Header validation: once the 52 bytes of the ELF header are read, a
type field other than 2 ends the process with status 10, and type 2 with a
section-header entry size other than 40 ends it with status 11; in both cases
`stdout` holds the pasted bootloader content and nothing else, so no Data,
Extended-Linear-Address or End-Of-File record is written. The two statuses
differ, and a run ends with neither of them exactly when the type is 2 and the
entry size is 40. -/
theorem header_validation (boot : Option (List Char)) (inclMipsSects : Bool)
    (file buf : List Nat) (hread : readElf32 file 0 sizeofElf32_Ehdr 1 = some buf) :
    ((asElf32_Ehdr buf).type ≠ 2 →
      main boot inclMipsSects file = some ⟨boot.getD [], 10⟩) ∧
    ((asElf32_Ehdr buf).type = 2 → (asElf32_Ehdr buf).shentsize ≠ 40 →
      main boot inclMipsSects file = some ⟨boot.getD [], 11⟩) ∧
    (∀ out, main boot inclMipsSects file = some out →
      ((out.status ≠ 10 ∧ out.status ≠ 11) ↔
        ((asElf32_Ehdr buf).type = 2 ∧ (asElf32_Ehdr buf).shentsize = 40))) ∧
    (10 : Nat) ≠ 11 ∧ ET_EXEC = 2 ∧ sizeofElf32_Shdr = 40 := by
  refine ⟨main_of_wrong_type boot inclMipsSects file buf hread,
    main_of_wrong_entry_size boot inclMipsSects file buf hread, ?_, by decide, rfl, rfl⟩
  intro out hout
  by_cases htype : (asElf32_Ehdr buf).type = 2
  · by_cases hsize : (asElf32_Ehdr buf).shentsize = 40
    · have := main_of_accepted boot inclMipsSects file buf hread htype hsize out hout
      constructor
      · intro _; exact ⟨htype, hsize⟩
      · intro _; omega
    · have h := main_of_wrong_entry_size boot inclMipsSects file buf hread htype hsize
      rw [h] at hout
      have hst : out.status = 11 := (Option.some.inj hout) ▸ rfl
      constructor
      · intro h'; exact absurd hst h'.2
      · intro h'; exact absurd h'.2 hsize
  · have h := main_of_wrong_type boot inclMipsSects file buf hread htype
    rw [h] at hout
    have hst : out.status = 10 := (Option.some.inj hout) ▸ rfl
    constructor
    · intro h'; exact absurd hst h'.1
    · intro h'; exact absurd h'.1 htype

set_option maxRecDepth 100000 in
theorem header_validation_witness :
    readElf32 (sampleElf 1 40 252) 0 sizeofElf32_Ehdr 1 = some (sampleEhdr 1 40) ∧
    (((asElf32_Ehdr (sampleEhdr 1 40)).type ≠ 2 →
      main (some "BOOT".toList) false (sampleElf 1 40 252)
        = some ⟨(some "BOOT".toList).getD [], 10⟩) ∧
    ((asElf32_Ehdr (sampleEhdr 1 40)).type = 2 → (asElf32_Ehdr (sampleEhdr 1 40)).shentsize ≠ 40 →
      main (some "BOOT".toList) false (sampleElf 1 40 252)
        = some ⟨(some "BOOT".toList).getD [], 11⟩) ∧
    (∀ out, main (some "BOOT".toList) false (sampleElf 1 40 252) = some out →
      ((out.status ≠ 10 ∧ out.status ≠ 11) ↔
        ((asElf32_Ehdr (sampleEhdr 1 40)).type = 2 ∧
          (asElf32_Ehdr (sampleEhdr 1 40)).shentsize = 40))) ∧
    (10 : Nat) ≠ 11 ∧ ET_EXEC = 2 ∧ sizeofElf32_Shdr = 40) :=
  ⟨by decide, header_validation (some "BOOT".toList) false (sampleElf 1 40 252) (sampleEhdr 1 40)
    (by decide)⟩

/-- C13, as the code has it: the section-header entry size that passes the
header check is 40 bytes, the size of `Elf32_Shdr` (ten 32-bit fields), not 32.
Once the ELF header is read and its type is 2, a run with entry size 40 goes
past both header checks (it ends with status 0 or 9), and a run with any other
entry size, 32 included, ends with status 11 and writes nothing of its own. -/
theorem entry_size_forty_accepted (boot : Option (List Char)) (inclMipsSects : Bool)
    (file buf : List Nat) (hread : readElf32 file 0 sizeofElf32_Ehdr 1 = some buf)
    (htype : (asElf32_Ehdr buf).type = 2) :
    ((asElf32_Ehdr buf).shentsize = 40 →
      ∀ out, main boot inclMipsSects file = some out → out.status = 0 ∨ out.status = 9) ∧
    ((asElf32_Ehdr buf).shentsize ≠ 40 →
      main boot inclMipsSects file = some ⟨boot.getD [], 11⟩) ∧
    ((asElf32_Ehdr buf).shentsize = 32 →
      main boot inclMipsSects file = some ⟨boot.getD [], 11⟩) ∧
    sizeofElf32_Shdr = 40 ∧ (∀ h : Elf32_Shdr, (bytesOfShdr h).length = sizeofElf32_Shdr) := by
  refine ⟨fun hsize out hout =>
      main_of_accepted boot inclMipsSects file buf hread htype hsize out hout,
    main_of_wrong_entry_size boot inclMipsSects file buf hread htype,
    fun h32 => main_of_wrong_entry_size boot inclMipsSects file buf hread htype (by omega),
    rfl, fun h => rfl⟩

set_option maxRecDepth 100000 in
theorem entry_size_forty_accepted_witness :
    (readElf32 (sampleElf 2 40 252) 0 sizeofElf32_Ehdr 1 = some (sampleEhdr 2 40) ∧
      (asElf32_Ehdr (sampleEhdr 2 40)).type = 2) ∧
    (((asElf32_Ehdr (sampleEhdr 2 40)).shentsize = 40 →
      ∀ out, main none false (sampleElf 2 40 252) = some out → out.status = 0 ∨ out.status = 9) ∧
    ((asElf32_Ehdr (sampleEhdr 2 40)).shentsize ≠ 40 →
      main none false (sampleElf 2 40 252) = some ⟨(none : Option (List Char)).getD [], 11⟩) ∧
    ((asElf32_Ehdr (sampleEhdr 2 40)).shentsize = 32 →
      main none false (sampleElf 2 40 252) = some ⟨(none : Option (List Char)).getD [], 11⟩) ∧
    sizeofElf32_Shdr = 40 ∧ (∀ h : Elf32_Shdr, (bytesOfShdr h).length = sizeofElf32_Shdr)) :=
  ⟨⟨by decide, by decide⟩,
    entry_size_forty_accepted none false (sampleElf 2 40 252) (sampleEhdr 2 40) (by decide)
      (by decide)⟩

set_option maxRecDepth 100000 in
/-- C13 fails on the code: a file whose ELF header has type 2 and
section-header entry size 32 is rejected with status 11, and the same file
with entry size 40 is converted with status 0. -/
theorem entry_size_thirty_two_rejected :
    (asElf32_Ehdr (sampleEhdr 2 32)).type = 2 ∧
    (asElf32_Ehdr (sampleEhdr 2 32)).shentsize = 32 ∧
    readElf32 (sampleElf 2 32 252) 0 sizeofElf32_Ehdr 1 = some (sampleEhdr 2 32) ∧
    main none false (sampleElf 2 32 252) = some ⟨[], 11⟩ ∧
    (asElf32_Ehdr (sampleEhdr 2 40)).shentsize = 40 ∧
    main none false (sampleElf 2 40 252)
      = some ⟨":020000041D00DD\x0d\x0a:04000000DEADBEEFC4\x0d\x0a".toList, 0⟩ := by
  decide

/-- C14. End-to-end example: for every ELF file (a buffer of bytes) that
passes the header checks, whose string table and section-header table can be
read, in which the name of every section of non-zero size ends inside the
string table, and whose section-header table has exactly one entry with
non-zero size and loadable name, an entry named `.text` with the 4 bytes
`DE AD BE EF` at virtual address `0x9D000000`, `main` ends with status 0 and
writes, after the
pasted bootloader content if any, exactly the line `:020000041D00DD`
(Extended-Linear-Address record for the physical page `0x1D00`), the line
`:04000000DEADBEEFC4` (one Data record), each ended by CR LF, and then the line
`:00000001FF` exactly when a bootloader file was given. -/
theorem single_text_section_output (boot : Option (List Char)) (inclMipsSects : Bool)
    (file buf nbuf sectionnames : List Nat) (pre post : List Elf32_Shdr) (h : Elf32_Shdr)
    (htables : ReadsTables file buf nbuf sectionnames)
    (hbytes : isBytes sectionnames)
    (hnum : (pre ++ h :: post).length = (asElf32_Ehdr buf).shnum)
    (hread : ReadsHeaders file (asElf32_Ehdr buf).shoff (pre ++ h :: post))
    (hnames : ∀ x ∈ pre ++ h :: post, x.size ≠ 0 → 0 ∈ sectionnames.drop x.name)
    (hothers : ∀ x ∈ pre ++ post,
      x.size = 0 ∨ isLoadable (sectionnames.drop x.name) inclMipsSects = false)
    (hname : cString (sectionnames.drop h.name) = lit ".text")
    (haddr : h.addr = 0x9D000000) (hsz : h.size = 4)
    (hcontent : readElf32 file h.offset 1 4 = some [0xDE, 0xAD, 0xBE, 0xEF]) :
    main boot inclMipsSects file
      = some ⟨boot.getD [] ++ ":020000041D00DD\x0d\x0a".toList
          ++ ":04000000DEADBEEFC4\x0d\x0a".toList
          ++ (if boot.isSome then ":00000001FF\x0d\x0a".toList else []), 0⟩ := by
  have hload : isLoadable (sectionnames.drop h.name) inclMipsSects = true := by
    have hb : isBytes (sectionnames.drop h.name) :=
      fun c hc => hbytes c (List.mem_of_mem_drop hc)
    cases inclMipsSects with
    | true =>
      rw [isLoadable_true_iff _ hb, hname]
      exact Or.inl (List.prefix_refl _)
    | false =>
      rw [isLoadable_false_iff _ hb, hname]
      exact Or.inl (List.prefix_refl _)
  have hnil : ∀ l : List Elf32_Shdr, (∀ x ∈ l,
      x.size = 0 ∨ isLoadable (sectionnames.drop x.name) inclMipsSects = false) →
      l.filter (fun h =>
        h.size ≠ 0 && isLoadable (sectionnames.drop h.name) inclMipsSects) = [] := by
    intro l hl
    rw [List.filter_eq_nil_iff]
    intro x hx
    rcases hl x hx with h0 | h0 <;> simp [h0]
  have hone : (pre ++ h :: post).filter (fun h =>
      h.size ≠ 0 && isLoadable (sectionnames.drop h.name) inclMipsSects) = [h] := by
    rw [List.filter_append, List.filter_cons, hnil pre (fun x hx => hothers x (List.mem_append.mpr (Or.inl hx))),
      hnil post (fun x hx => hothers x (List.mem_append.mpr (Or.inr hx)))]
    simp [hload, hsz]
  have hsel : ∀ x ∈ pre ++ h :: post,
      (x.size ≠ 0 && isLoadable (sectionnames.drop x.name) inclMipsSects) = true →
      readElf32 file x.offset 1 x.size ≠ none ∧ x.size + 15 < 2 ^ 32 := by
    intro x hx hxs
    have hmem : x ∈ (pre ++ h :: post).filter (fun h =>
        h.size ≠ 0 && isLoadable (sectionnames.drop h.name) inclMipsSects) :=
      List.mem_filter.mpr ⟨hx, hxs⟩
    rw [hone, List.mem_singleton] at hmem
    rw [hmem, hsz, hcontent]
    exact ⟨by simp, by norm_num⟩
  obtain ⟨encs, hall, hloop⟩ := sectionLoop_eq file sectionnames (asElf32_Ehdr buf).shoff 40
    inclMipsSects (pre ++ h :: post) 0 (fun j hj => by simpa using hread j hj) hnames hsel
  rw [hone] at hall
  cases hall with
  | cons hhead htail =>
    cases htail
    obtain ⟨sectcontent, hsc, henc⟩ := hhead
    rw [hsz, hcontent] at hsc
    rw [← Option.some.inj hsc, hsz, haddr] at henc
    have hval : encodeSection 4 (AsPhysical 0x9D000000) [0xDE, 0xAD, 0xBE, 0xEF]
        = some [":020000041D00DD\x0d\x0a".toList, ":04000000DEADBEEFC4\x0d\x0a".toList] := by
      decide
    rw [hval] at henc
    rw [hnum] at hloop
    rw [main_of_loop boot inclMipsSects file buf nbuf sectionnames _ htables hloop,
      ← Option.some.inj henc]
    simp

set_option maxRecDepth 100000 in
theorem single_text_section_output_witness :
    (ReadsTables (sampleElf 2 40 252) (sampleEhdr 2 40)
        (bytesOfShdr ⟨18, 3, 0, 0, 256, 28, 0, 0, 1, 0⟩) sampleElfNames ∧
      isBytes sampleElfNames ∧
      ([(⟨0, 0, 0, 0, 0, 0, 0, 0, 0, 0⟩ : Elf32_Shdr)]
          ++ ⟨1, 1, 6, 0x9D000000, 252, 4, 0, 0, 4, 0⟩ :: (sampleElfHeaders 252).drop 2).length
        = (asElf32_Ehdr (sampleEhdr 2 40)).shnum ∧
      ReadsHeaders (sampleElf 2 40 252) (asElf32_Ehdr (sampleEhdr 2 40)).shoff
        ([(⟨0, 0, 0, 0, 0, 0, 0, 0, 0, 0⟩ : Elf32_Shdr)]
          ++ ⟨1, 1, 6, 0x9D000000, 252, 4, 0, 0, 4, 0⟩ :: (sampleElfHeaders 252).drop 2) ∧
      (∀ x ∈ [(⟨0, 0, 0, 0, 0, 0, 0, 0, 0, 0⟩ : Elf32_Shdr)]
          ++ ⟨1, 1, 6, 0x9D000000, 252, 4, 0, 0, 4, 0⟩ :: (sampleElfHeaders 252).drop 2,
        x.size ≠ 0 → 0 ∈ sampleElfNames.drop x.name) ∧
      (∀ x ∈ [(⟨0, 0, 0, 0, 0, 0, 0, 0, 0, 0⟩ : Elf32_Shdr)] ++ (sampleElfHeaders 252).drop 2,
        x.size = 0 ∨ isLoadable (sampleElfNames.drop x.name) false = false) ∧
      cString (sampleElfNames.drop 1) = lit ".text" ∧
      readElf32 (sampleElf 2 40 252) 252 1 4 = some [0xDE, 0xAD, 0xBE, 0xEF]) ∧
    main (some ":020000040000FA\x0d\x0a".toList) false (sampleElf 2 40 252)
      = some ⟨(some ":020000040000FA\x0d\x0a".toList).getD [] ++ ":020000041D00DD\x0d\x0a".toList
          ++ ":04000000DEADBEEFC4\x0d\x0a".toList
          ++ (if (some ":020000040000FA\x0d\x0a".toList).isSome then ":00000001FF\x0d\x0a".toList
              else []), 0⟩ :=
  ⟨⟨by unfold ReadsTables; decide, by unfold isBytes; decide, by decide,
      by unfold ReadsHeaders; decide, by decide, by decide, by decide, by decide⟩,
    single_text_section_output (some ":020000040000FA\x0d\x0a".toList) false (sampleElf 2 40 252)
      (sampleEhdr 2 40) (bytesOfShdr ⟨18, 3, 0, 0, 256, 28, 0, 0, 1, 0⟩) sampleElfNames
      [⟨0, 0, 0, 0, 0, 0, 0, 0, 0, 0⟩] ((sampleElfHeaders 252).drop 2)
      ⟨1, 1, 6, 0x9D000000, 252, 4, 0, 0, 4, 0⟩
      (by unfold ReadsTables; decide) (by unfold isBytes; decide) (by decide)
      (by unfold ReadsHeaders; decide) (by decide) (by decide) (by decide) rfl rfl (by decide)⟩

/-- C15. Hex digit rendering: for every 64-bit `n` and every width `d` with
`1 <= d <= 16`, `Hex n d` passes exactly `d` characters to `output`, each one
of `0-9`, `A-F`; the character at position `i` is the digit of
`n / 16^(d-1-i) mod 16`, so the most significant nibble comes first and the
field is zero-padded; read back as a base-16 number the characters give
`n mod 16^d`, which is `n` itself when `n < 16^d`. A byte written with width 2
and a 16-bit address written with width 4 read back as themselves. -/
theorem Hex_renders_low_digits (n d : Nat) (hn : n < 2 ^ 64) (hd1 : 1 ≤ d) (hd : d ≤ 16) :
    (Hex n d).length = d ∧
    (∀ c ∈ Hex n d, c ∈ "0123456789ABCDEF".toList) ∧
    (∀ i, i < d → (Hex n d)[i]? = some (hexDigit (n / 16 ^ (d - 1 - i) % 16))) ∧
    hexNumber (Hex n d) = some (n % 16 ^ d) ∧
    (n < 16 ^ d → hexNumber (Hex n d) = some n) ∧
    (∀ b, b < 256 → hexNumber (Hex b 2) = some b) ∧
    (∀ a, a < 65536 → hexNumber (Hex a 4) = some a) := by
  have _ := hn
  have _ := hd1
  rw [Hex_eq_hexText n d hd]
  refine ⟨length_hexText d n, mem_hexText d n, getElem?_hexText d n, hexNumber_hexText d n,
    ?_, ?_, ?_⟩
  · intro h
    rw [hexNumber_hexText, Nat.mod_eq_of_lt h]
  · intro b hb
    rw [Hex_eq_hexText b 2 (by decide), hexNumber_hexText, Nat.mod_eq_of_lt (by norm_num; omega)]
  · intro a ha
    rw [Hex_eq_hexText a 4 (by decide), hexNumber_hexText, Nat.mod_eq_of_lt (by norm_num; omega)]

theorem Hex_renders_low_digits_witness :
    (0x1D00FFF8 < 2 ^ 64 ∧ 1 ≤ 4 ∧ 4 ≤ 16) ∧
    ((Hex 0x1D00FFF8 4).length = 4 ∧
    (∀ c ∈ Hex 0x1D00FFF8 4, c ∈ "0123456789ABCDEF".toList) ∧
    (∀ i, i < 4 → (Hex 0x1D00FFF8 4)[i]? = some (hexDigit (0x1D00FFF8 / 16 ^ (4 - 1 - i) % 16))) ∧
    hexNumber (Hex 0x1D00FFF8 4) = some (0x1D00FFF8 % 16 ^ 4) ∧
    (0x1D00FFF8 < 16 ^ 4 → hexNumber (Hex 0x1D00FFF8 4) = some 0x1D00FFF8) ∧
    (∀ b, b < 256 → hexNumber (Hex b 2) = some b) ∧
    (∀ a, a < 65536 → hexNumber (Hex a 4) = some a)) :=
  ⟨⟨by norm_num, by decide, by decide⟩,
    Hex_renders_low_digits 0x1D00FFF8 4 (by norm_num) (by decide) (by decide)⟩

/-- C16, as far as it holds: for every physical base `paddr` and every
non-empty section content of fewer than `2^32 - 15` bytes the encoder returns
and its lines decode; standard
Intel HEX decoding (upper 16 bits from the most recent Extended-Linear-Address
record, lower 16 bits from the address field) gives one address per Data
record, and the address of the Data record at in-section offset `o = 16 * k`
is `(paddr + o) mod 2^32` whenever `paddr + o` has the same bits 31-16 as
`paddr + 32768 * (o / 32768)`, the address at the last multiple of 32768 of
the offset. This is so for every Data record when `paddr` is a multiple of
32768 and the section ends at or below `2^32`; the address is then
`paddr + o`. -/
theorem data_record_addresses (paddr : Nat) (sectcontent : List Nat) (h : sectcontent ≠ [])
    (hsize : sectcontent.length + 15 < 2 ^ 32) :
    ∃ (recs : List (List Char)) (rs : List Record),
      encodeSection sectcontent.length paddr sectcontent = some recs ∧
      recs.map decodeRecord = rs.map some ∧
      (dataAddresses 0 rs).length = (sectcontent.length + 15) / 16 ∧
      (∀ k, k < (sectcontent.length + 15) / 16 →
        (paddr + 32768 * (16 * k / 32768)) % 2 ^ 32 / 65536
          = (paddr + 16 * k) % 2 ^ 32 / 65536 →
        (dataAddresses 0 rs)[k]? = some ((paddr + 16 * k) % 2 ^ 32)) ∧
      (paddr % 32768 = 0 → paddr + sectcontent.length ≤ 2 ^ 32 →
        ∀ k, k < (sectcontent.length + 15) / 16 →
          (dataAddresses 0 rs)[k]? = some (paddr + 16 * k)) := by
  have hn : 0 < sectcontent.length := List.length_pos.mpr h
  have haddr := dataAddresses_blocks paddr sectcontent ((sectcontent.length + 15) / 16) 0 0
    (by intro h0; exact absurd rfl h0)
  rw [← List.range_eq_range'] at haddr
  refine ⟨_, _, encodeSection_eq paddr sectcontent hn hsize,
    map_decodeRecord_flatMap paddr sectcontent _, ?_, ?_, ?_⟩
  · rw [haddr, List.length_map, List.length_range]
  · intro k hk hsame
    rw [haddr, List.getElem?_map, List.getElem?_range hk, Option.map_some']
    congr 1
    omega
  · intro halign hend k hk
    rw [haddr, List.getElem?_map, List.getElem?_range hk, Option.map_some']
    congr 1
    omega

theorem data_record_addresses_witness :
    (List.range 17 ≠ [] ∧ (List.range 17).length + 15 < 2 ^ 32) ∧
    ∃ (recs : List (List Char)) (rs : List Record),
      encodeSection (List.range 17).length 0x1D00FFF8 (List.range 17) = some recs ∧
      recs.map decodeRecord = rs.map some ∧
      (dataAddresses 0 rs).length = ((List.range 17).length + 15) / 16 ∧
      (∀ k, k < ((List.range 17).length + 15) / 16 →
        (0x1D00FFF8 + 32768 * (16 * k / 32768)) % 2 ^ 32 / 65536
          = (0x1D00FFF8 + 16 * k) % 2 ^ 32 / 65536 →
        (dataAddresses 0 rs)[k]? = some ((0x1D00FFF8 + 16 * k) % 2 ^ 32)) ∧
      (0x1D00FFF8 % 32768 = 0 → 0x1D00FFF8 + (List.range 17).length ≤ 2 ^ 32 →
        ∀ k, k < ((List.range 17).length + 15) / 16 →
          (dataAddresses 0 rs)[k]? = some (0x1D00FFF8 + 16 * k)) :=
  ⟨⟨by decide, by norm_num⟩,
    data_record_addresses 0x1D00FFF8 (List.range 17) (by decide) (by norm_num)⟩

set_option maxRecDepth 100000 in
/-- C16 fails on the code: a section of 17 bytes at physical base `0x1D00FFF8`
is written as one Extended-Linear-Address record for `0x1D00` and two Data
records with address fields `FFF8` and `0008`; standard decoding places the
second Data record at `0x1D000008`, while its first byte belongs at
`0x1D00FFF8 + 16 = 0x1D010008`. -/
theorem framing_fails_at_unaligned_base :
    encodeSection 17 0x1D00FFF8 (List.range 17)
      = some [":020000041D00DD\x0d\x0a".toList,
          ":10FFF800000102030405060708090A0B0C0D0E0F81\x0d\x0a".toList,
          ":0100080010E7\x0d\x0a".toList] ∧
    [":020000041D00DD\x0d\x0a".toList,
        ":10FFF800000102030405060708090A0B0C0D0E0F81\x0d\x0a".toList,
        ":0100080010E7\x0d\x0a".toList].map decodeRecord
      = [some ⟨2, 0, 4, [0x1D, 0], 0xDD⟩,
          some ⟨16, 0xFFF8, 0, List.range 16, 0x81⟩,
          some ⟨1, 8, 0, [16], 0xE7⟩] ∧
    dataAddresses 0 [⟨2, 0, 4, [0x1D, 0], 0xDD⟩, ⟨16, 0xFFF8, 0, List.range 16, 0x81⟩,
        ⟨1, 8, 0, [16], 0xE7⟩]
      = [0x1D00FFF8, 0x1D000008] ∧
    0x1D000008 ≠ 0x1D00FFF8 + 16 := by
  decide

/-- C18, on the failing input: for a section of `2^32 - 15` bytes, a size the
claim covers, the record loop does not run to `bytesleft = 0`. In the first
pass (`bytesleft = size`) the `for` loop reaches `i = 15`, where the 32-bit sum
`i + sectionHeader.size` wraps to `0`; the index
`i + sectionHeader.size - bytesleft` is then `2^64 - 2^32 + 15`, the read is
outside the buffer, and the loop returns no record list, whatever the number
of passes allowed. -/
theorem record_loop_reads_outside_buffer :
    0 < 2 ^ 32 - 15 ∧ 2 ^ 32 - 15 < 2 ^ 32 ∧ largeContent.length = 2 ^ 32 - 15 ∧
    min (2 ^ 32 - 15) 16 = 16 ∧
    payloadIndex 15 (2 ^ 32 - 15) (2 ^ 32 - 15) = 2 ^ 64 - 2 ^ 32 + 15 ∧
    largeContent[payloadIndex 15 (2 ^ 32 - 15) (2 ^ 32 - 15)]? = none ∧
    again.body (2 ^ 32 - 15) 0x1D000000 largeContent (2 ^ 32 - 15) = none ∧
    (∀ fuel, again (2 ^ 32 - 15) 0x1D000000 largeContent fuel (2 ^ 32 - 15) = none) ∧
    encodeSection (2 ^ 32 - 15) 0x1D000000 largeContent = none := by
  have hlen : largeContent.length = 2 ^ 32 - 15 := List.length_replicate _ _
  have h1 : 2 ^ 32 ≤ 2 ^ 32 - 15 + 15 := by norm_num
  have h2 : 2 ^ 32 - 15 < 2 ^ 32 := by norm_num
  have hidx : payloadIndex 15 (2 ^ 32 - 15) (2 ^ 32 - 15) = 2 ^ 64 - 2 ^ 32 + 15 := by
    unfold payloadIndex
    norm_num
  refine ⟨by norm_num, h2, hlen, by norm_num, hidx, ?_,
    again.body_outside _ _ _ hlen h1 h2, again_outside _ _ _ hlen h1 h2,
    again_outside _ _ _ hlen h1 h2 _⟩
  rw [hidx]
  apply List.getElem?_eq_none
  rw [hlen]
  norm_num

/-- C20, on the failing input: for the C strings `.text\xFF` and `.text`, the
second a proper prefix of the first, `IsPrefixOrEqual` returns `-1`, the value
it returns for equal strings: the character after the prefix is `0xFF`, which
as a signed `char` is `-1`. -/
theorem IsPrefixOrEqual_minus_one_on_longer_string :
    IsPrefixOrEqual (lit ".text" ++ [0xFF]) (lit ".text") = -1 ∧
    IsPrefixOrEqual (lit ".text") (lit ".text") = -1 ∧
    lit ".text" ++ [0xFF] ≠ lit ".text" ∧
    lit ".text" <+: lit ".text" ++ [0xFF] ∧
    isCString (lit ".text" ++ [0xFF]) ∧ isCString (lit ".text") := by
  refine ⟨by decide, by decide, by decide, List.prefix_append _ _, ?_, ?_⟩ <;>
    (unfold isCString; decide)

end Llvm2pic32
